import Mathlib

/-!
Verification of the decision-tree builder and index assigner of
`disarm64_gen` (`src/disarm64_gen/src/decision_tree.rs`).

The Rust code is shallowly embedded:
* `u32` values are `Nat`s below `2^32`; `!0u32` is the literal `0xFFFFFFFF`.
* `Insn` (from `disarm64_defn`) is reduced to the fields the builder reads
  (`opcode`, `mask`) plus an opaque `tag` standing for the rest of the record
  (mnemonic, class, …), which the builder never inspects.
* `DecisionTree = Option<Box<DecisionTreeNode>>` is represented by the single
  inductive `DTree`, with the `None` case fused in as `DTree.empty`
  (`Box` is irrelevant to the functional behaviour).
* `1u32.shl(b)` panics when `b ≥ 32` (shift overflow); the builder returns an
  `Option`, with `none` as the panic outcome, and an explicit guard marks the
  panic branch.  Everything else in the builder is total.
* The in-place mutation through `&mut` references becomes explicit state
  passing; the `depth` counter is dropped (it is only used for logging and its
  net effect on the state is zero).
-/

/-- The fields of `disarm64_defn::deser::Insn` that the decision-tree builder
reads, plus `tag` for the opaque remainder of the record (never inspected). -/
structure Insn where
  mask : Nat
  opcode : Nat
  tag : Nat
deriving DecidableEq, Repr

/-- `struct LeafNode { mask: u32, insn: Rc<Insn> }`: a rule paired with its
remaining (not yet decided) mask. -/
structure LeafNode where
  mask : Nat
  insn : Insn
deriving DecidableEq, Repr

/-- `enum DecisionTreeNode` together with the surrounding
`type DecisionTree = Option<Box<DecisionTreeNode>>`; the `None` case of the
option is fused in as the constructor `DTree.empty`. -/
inductive DTree where
  | empty : DTree
  | leaf (index : Option Nat) (insns : List LeafNode) : DTree
  | branch (index : Option Nat) (decision_bit : Nat) (zero : DTree) (one : DTree) : DTree
deriving DecidableEq, Repr

/-- `enum DecisionTreeIndexing { None, DFS, BFS }`. -/
inductive DecisionTreeIndexing where
  | None : DecisionTreeIndexing
  | DFS : DecisionTreeIndexing
  | BFS : DecisionTreeIndexing
deriving DecidableEq, Repr

/-- The fold computing `acc_mask`:
`insns.iter().fold(!0u32, |acc, insn| acc & insn.mask)`. -/
def accMask (insns : List LeafNode) : Nat :=
  insns.foldl (fun acc insn => acc &&& insn.mask) 0xFFFFFFFF

/-- Fuelled helper for `u32::trailing_zeros`. -/
def tzAux : Nat → Nat → Nat
  | 0, _ => 0
  | fuel + 1, n => if n % 2 = 1 then 0 else tzAux fuel (n / 2) + 1

/-- `u32::trailing_zeros`: index of the lowest set bit (32 for input 0). -/
def trailing_zeros (n : Nat) : Nat := tzAux 32 n

/-- `u32::count_zeros`: the number of clear bits among the 32 bits. -/
def count_zeros (m : Nat) : Nat :=
  ((Finset.range 32).filter (fun i => m.testBit i = false)).card

/-- One iteration of the split loop body on a single rule:
`node.mask &= !decision_mask` (the decision bit is cleared from the
remaining mask; the rule itself is untouched). -/
def clearDecision (dm : Nat) (n : LeafNode) : LeafNode :=
  { n with mask := n.mask &&& (0xFFFFFFFF ^^^ dm) }

/-- The rules pushed onto `zero` by the split loop: those whose opcode has the
decision bit clear, each with the decision bit removed from its mask. -/
def splitZero (dm : Nat) (insns : List LeafNode) : List LeafNode :=
  (insns.map (clearDecision dm)).filter (fun n => n.insn.opcode &&& dm == 0)

/-- The rules pushed onto `one` by the split loop: those whose opcode has the
decision bit set, each with the decision bit removed from its mask. -/
def splitOne (dm : Nat) (insns : List LeafNode) : List LeafNode :=
  (insns.map (clearDecision dm)).filter (fun n => !(n.insn.opcode &&& dm == 0))

/-- The sort key relation of `insns.sort_by_key(|insn| insn.mask.count_zeros())`. -/
def leafLe (a b : LeafNode) : Prop :=
  count_zeros a.mask ≤ count_zeros b.mask

instance : DecidableRel leafLe := fun a b =>
  inferInstanceAs (Decidable (count_zeros a.mask ≤ count_zeros b.mask))

instance : IsTotal LeafNode leafLe := ⟨fun a b => Nat.le_total _ _⟩

instance : IsTrans LeafNode leafLe := ⟨fun _ _ _ => Nat.le_trans⟩

/-- `insns.sort_by_key(|insn| insn.mask.count_zeros())`: Rust's slice sort is
stable, modelled by the (stable) insertion sort. -/
def sort_by_key (insns : List LeafNode) : List LeafNode :=
  insns.insertionSort leafLe

-- Auxiliary lemmas needed for the builder's termination argument.

theorem accMask_aux_le (l : List LeafNode) (a : Nat) :
    l.foldl (fun acc insn => acc &&& insn.mask) a ≤ a := by
  induction l generalizing a with
  | nil => exact Nat.le_refl _
  | cons n rest ih => exact Nat.le_trans (ih _) Nat.and_le_left

theorem accMask_le (l : List LeafNode) : accMask l ≤ 0xFFFFFFFF :=
  accMask_aux_le l _

theorem accMask_lt_two_pow (l : List LeafNode) : accMask l < 2 ^ 32 :=
  Nat.lt_of_le_of_lt (accMask_le l) (by norm_num)

theorem and_and_right_comm (a b c : Nat) : a &&& c &&& (b &&& c) = a &&& b &&& c := by
  apply Nat.eq_of_testBit_eq
  intro i
  simp only [Nat.testBit_and]
  cases a.testBit i <;> cases b.testBit i <;> cases c.testBit i <;> rfl

theorem accMask_aux_and (l : List LeafNode) (dm : Nat) : ∀ a : Nat,
    (l.map (clearDecision dm)).foldl
        (fun acc insn => acc &&& insn.mask) (a &&& (0xFFFFFFFF ^^^ dm))
      = (l.foldl (fun acc insn => acc &&& insn.mask) a) &&& (0xFFFFFFFF ^^^ dm) := by
  induction l with
  | nil => intro a; rfl
  | cons n rest ih =>
    intro a
    simp only [List.map_cons, List.foldl_cons, clearDecision]
    rw [and_and_right_comm, ih]

theorem accMask_map_clear (l : List LeafNode) (dm : Nat) (hne : l ≠ []) :
    accMask (l.map (clearDecision dm)) = accMask l &&& (0xFFFFFFFF ^^^ dm) := by
  cases l with
  | nil => exact absurd rfl hne
  | cons n rest =>
    unfold accMask
    simp only [List.map_cons, List.foldl_cons, clearDecision]
    rw [show (0xFFFFFFFF : Nat) &&& (n.mask &&& (0xFFFFFFFF ^^^ dm))
        = (0xFFFFFFFF &&& n.mask) &&& (0xFFFFFFFF ^^^ dm) from by
      rw [Nat.and_assoc]]
    exact accMask_aux_and rest dm (0xFFFFFFFF &&& n.mask)

theorem tzAux_spec : ∀ (fuel n : Nat), n ≠ 0 → n < 2 ^ fuel →
    tzAux fuel n < fuel ∧ n.testBit (tzAux fuel n) = true := by
  intro fuel
  induction fuel with
  | zero => intro n h0 hlt; omega
  | succ fuel ih =>
    intro n h0 hlt
    unfold tzAux
    by_cases hodd : n % 2 = 1
    · simp only [hodd, if_pos rfl]
      constructor
      · exact Nat.succ_pos fuel
      · simp [Nat.testBit_zero, hodd]
    · simp only [if_neg hodd]
      have heven : n % 2 = 0 := by omega
      have hhalf0 : n / 2 ≠ 0 := by omega
      have hhalflt : n / 2 < 2 ^ fuel := by
        have : 2 ^ (fuel + 1) = 2 ^ fuel * 2 := by ring
        omega
      obtain ⟨h1, h2⟩ := ih (n / 2) hhalf0 hhalflt
      constructor
      · omega
      · rw [show tzAux fuel (n / 2) + 1 = Nat.succ (tzAux fuel (n / 2)) from rfl,
          Nat.testBit_succ]
        exact h2

theorem trailing_zeros_spec {n : Nat} (h0 : n ≠ 0) (hlt : n < 2 ^ 32) :
    trailing_zeros n < 32 ∧ n.testBit (trailing_zeros n) = true :=
  tzAux_spec 32 n h0 hlt

theorem testBit_u32max (i : Nat) : (0xFFFFFFFF : Nat).testBit i = decide (i < 32) := by
  rw [show (0xFFFFFFFF : Nat) = 2 ^ 32 - 1 from by norm_num]
  exact Nat.testBit_two_pow_sub_one 32 i

theorem accMask_clear_tz_lt (l : List LeafNode) (hne : accMask l ≠ 0) :
    accMask l &&& (0xFFFFFFFF ^^^ 1 <<< trailing_zeros (accMask l)) < accMask l := by
  obtain ⟨hb, htb⟩ := trailing_zeros_spec hne (accMask_lt_two_pow l)
  apply Nat.lt_of_le_of_ne Nat.and_le_left
  intro heq
  have hxorbit : ((0xFFFFFFFF : Nat) ^^^ 1 <<< trailing_zeros (accMask l)).testBit
      (trailing_zeros (accMask l)) = false := by
    simp [Nat.testBit_xor, testBit_u32max, Nat.testBit_shiftLeft, hb]
  have hcontr := congrArg (fun x => Nat.testBit x (trailing_zeros (accMask l))) heq
  simp only [Nat.testBit_and, hxorbit, Bool.and_false, htb] at hcontr
  exact Bool.false_ne_true hcontr

theorem length_filter_add_length_filter_not {α : Type} (p : α → Bool) :
    ∀ m : List α, (m.filter p).length + (m.filter (fun x => !p x)).length = m.length := by
  intro m
  induction m with
  | nil => rfl
  | cons x rest ih =>
    by_cases h : p x = true <;> simp [List.filter_cons, h] <;> omega

theorem splitZero_length_add (dm : Nat) (l : List LeafNode) :
    (splitZero dm l).length + (splitOne dm l).length = l.length := by
  have h := length_filter_add_length_filter_not
    (fun n => n.insn.opcode &&& dm == 0) (l.map (clearDecision dm))
  unfold splitZero splitOne
  simpa using h

theorem splitZero_nil_splitOne (dm : Nat) (l : List LeafNode)
    (h : splitZero dm l = []) : splitOne dm l = l.map (clearDecision dm) := by
  unfold splitZero at h
  unfold splitOne
  rw [List.filter_eq_nil_iff] at h
  rw [List.filter_eq_self]
  intro a ha
  simpa using h a ha

theorem splitOne_nil_splitZero (dm : Nat) (l : List LeafNode)
    (h : splitOne dm l = []) : splitZero dm l = l.map (clearDecision dm) := by
  unfold splitOne at h
  unfold splitZero
  rw [List.filter_eq_nil_iff] at h
  rw [List.filter_eq_self]
  intro a ha
  simpa using h a ha

/-- `build_decision_tree_recursive`.  The Rust `loop` is expressed as tail
recursion: the two `continue` arms re-enter with the surviving subgroup, whose
length is ≥ 2, so the two re-checked base cases never fire there and the
behaviour is identical.  The first `none` arm is the shift-overflow panic of
`1u32.shl(decision_bit)` (it panics exactly when `decision_bit ≥ 32`), made
explicit; the final catch-all `none` propagates a panic from a recursive call. -/
def build_decision_tree_recursive (insns : List LeafNode) : Option DTree :=
  if insns = [] then some DTree.empty
  else if insns.length = 1 then some (DTree.leaf none insns)
  else if accMask insns = 0 then some (DTree.leaf none (sort_by_key insns))
  else if 32 ≤ trailing_zeros (accMask insns) then none
  else if hz : splitZero (1 <<< trailing_zeros (accMask insns)) insns = [] then
    build_decision_tree_recursive (splitOne (1 <<< trailing_zeros (accMask insns)) insns)
  else if ho : splitOne (1 <<< trailing_zeros (accMask insns)) insns = [] then
    build_decision_tree_recursive (splitZero (1 <<< trailing_zeros (accMask insns)) insns)
  else
    match build_decision_tree_recursive (splitZero (1 <<< trailing_zeros (accMask insns)) insns),
          build_decision_tree_recursive (splitOne (1 <<< trailing_zeros (accMask insns)) insns) with
    | some zt, some ot =>
      some (DTree.branch none (trailing_zeros (accMask insns)) zt ot)
    | _, _ => none
termination_by (insns.length, accMask insns)
decreasing_by
  · have hone : splitOne (1 <<< trailing_zeros (accMask insns)) insns
        = insns.map (clearDecision (1 <<< trailing_zeros (accMask insns))) :=
      splitZero_nil_splitOne _ insns hz
    have hlen : (splitOne (1 <<< trailing_zeros (accMask insns)) insns).length
        = insns.length := by rw [hone, List.length_map]
    have hacc : accMask (splitOne (1 <<< trailing_zeros (accMask insns)) insns)
        < accMask insns := by
      rw [hone, accMask_map_clear _ _ (by assumption)]
      exact accMask_clear_tz_lt insns (by assumption)
    rw [hlen]
    exact Prod.Lex.right _ hacc
  · have hzero : splitZero (1 <<< trailing_zeros (accMask insns)) insns
        = insns.map (clearDecision (1 <<< trailing_zeros (accMask insns))) :=
      splitOne_nil_splitZero _ insns ho
    have hlen : (splitZero (1 <<< trailing_zeros (accMask insns)) insns).length
        = insns.length := by rw [hzero, List.length_map]
    have hacc : accMask (splitZero (1 <<< trailing_zeros (accMask insns)) insns)
        < accMask insns := by
      rw [hzero, accMask_map_clear _ _ (by assumption)]
      exact accMask_clear_tz_lt insns (by assumption)
    rw [hlen]
    exact Prod.Lex.right _ hacc
  · have := splitZero_length_add (1 <<< trailing_zeros (accMask insns)) insns
    have h1 : (splitOne (1 <<< trailing_zeros (accMask insns)) insns).length ≠ 0 := by
      intro hc
      exact ho (List.length_eq_zero.mp hc)
    apply Prod.Lex.left
    omega
  · have := splitZero_length_add (1 <<< trailing_zeros (accMask insns)) insns
    have h1 : (splitZero (1 <<< trailing_zeros (accMask insns)) insns).length ≠ 0 := by
      intro hc
      exact hz (List.length_eq_zero.mp hc)
    apply Prod.Lex.left
    omega

/-- Size of a tree: number of nodes (leaves plus branches). -/
def treeSize : DTree → Nat
  | DTree.empty => 0
  | DTree.leaf _ _ => 1
  | DTree.branch _ _ z o => 1 + treeSize z + treeSize o

/-- `assign_indexes_dfs`: the `&mut usize` counter becomes explicit state.
A node receives the current index before its children are visited, the zero
subtree is fully numbered before the one subtree. -/
def assign_indexes_dfs : DTree → Nat → DTree × Nat
  | DTree.empty, index => (DTree.empty, index)
  | DTree.leaf _ insns, index => (DTree.leaf (some index) insns, index + 1)
  | DTree.branch _ b z o, index =>
    let zr := assign_indexes_dfs z (index + 1)
    let or := assign_indexes_dfs o zr.2
    (DTree.branch (some index) b zr.1 or.1, or.2)

/-- The worklist loop of `assign_indexes_bfs`.  The Rust code keeps a `Vec` of
`&mut` subtree references, pushes the root, then repeatedly `pop`s the LAST
element (LIFO), assigns it the next index, and pushes the zero then the one
child.  Here the worklist is a list whose head is the top of that stack, and
the retagged subtrees are returned positionally (the mutation through each
`&mut` entry becomes the corresponding element of the result list); after a
branch is numbered its children sit on top, the one child first, exactly as in
the Rust pop order.  The catch-all `[]` arm is unreachable because the
recursive call preserves the list length (`bfs_go_length`). -/
def bfs_go : Nat → List DTree → List DTree
  | _, [] => []
  | index, DTree.empty :: rest => DTree.empty :: bfs_go index rest
  | index, DTree.leaf _ insns :: rest =>
    DTree.leaf (some index) insns :: bfs_go (index + 1) rest
  | index, DTree.branch _ b z o :: rest =>
    match bfs_go (index + 1) (o :: z :: rest) with
    | ozr :: zr :: restr => DTree.branch (some index) b zr ozr :: restr
    | _ => []
termination_by index l => ((l.map treeSize).sum, l.length)
decreasing_by
  · simp only [List.map_cons, List.sum_cons, treeSize, Nat.zero_add, List.length_cons]
    exact Prod.Lex.right _ (by omega)
  · simp only [List.map_cons, List.sum_cons]
    apply Prod.Lex.left
    simp only [treeSize]
    omega
  · simp only [List.map_cons, List.sum_cons]
    apply Prod.Lex.left
    simp only [treeSize]
    omega

/-- `assign_indexes_bfs`: push the root on the worklist and run the loop; the
single transformed root comes back as the head of the result. -/
def assign_indexes_bfs (t : DTree) : DTree :=
  (bfs_go 0 [t]).headD DTree.empty

/-- `assign_indexes`. -/
def assign_indexes (t : DTree) : DecisionTreeIndexing → DTree
  | DecisionTreeIndexing.DFS => (assign_indexes_dfs t 0).1
  | DecisionTreeIndexing.BFS => assign_indexes_bfs t
  | DecisionTreeIndexing.None => t

/-- `build_decision_tree`: wrap each `Rc<Insn>` into a `LeafNode` whose
remaining mask starts as the rule's full mask, build, then assign indexes.
A `none` result is the (unreachable) shift-overflow panic. -/
def build_decision_tree (insns : List Insn) (indexing : DecisionTreeIndexing) :
    Option DTree :=
  match build_decision_tree_recursive
      (insns.map (fun insn => { insn := insn, mask := insn.mask })) with
  | none => none
  | some t => some (assign_indexes t indexing)

-- Read-only traversal interface over finished trees (the output boundary of
-- the core), and the decoding procedure described by the specification.

/-- The leaf rule lists of a tree, left (zero) to right (one). -/
def leafLists : DTree → List (List LeafNode)
  | DTree.empty => []
  | DTree.leaf _ insns => [insns]
  | DTree.branch _ _ z o => leafLists z ++ leafLists o

/-- All rules stored in the leaves of a tree, in leaf order. -/
def allLeafInsns (t : DTree) : List Insn :=
  (leafLists t).flatten.map LeafNode.insn

/-- The leaves of a tree, each paired with the union (as a bit mask) of
`1 <<< decision_bit` over the Branch nodes on its root-to-leaf path; the path
bit accumulator `p` starts at 0 at the root. -/
def leafEntries (p : Nat) : DTree → List (Nat × LeafNode)
  | DTree.empty => []
  | DTree.leaf _ insns => insns.map (fun n => (p, n))
  | DTree.branch _ b z o =>
    leafEntries (p ||| 1 <<< b) z ++ leafEntries (p ||| 1 <<< b) o

/-- The index fields of all nodes of a tree, in preorder. -/
def collectIndices : DTree → List (Option Nat)
  | DTree.empty => []
  | DTree.leaf i _ => [i]
  | DTree.branch i _ z o => i :: (collectIndices z ++ collectIndices o)

/-- The index fields of the nodes at exactly depth `d` (root is depth 0). -/
def indicesAtDepth : DTree → Nat → List (Option Nat)
  | DTree.empty, _ => []
  | DTree.leaf i _, 0 => [i]
  | DTree.leaf _ _, _ + 1 => []
  | DTree.branch i _ _ _, 0 => [i]
  | DTree.branch _ _ z o, d + 1 => indicesAtDepth z d ++ indicesAtDepth o d

/-- A tree with every index field erased; assigning indexes only rewrites the
index fields, so it leaves `stripIdx` of the tree unchanged. -/
def stripIdx : DTree → DTree
  | DTree.empty => DTree.empty
  | DTree.leaf _ insns => DTree.leaf none insns
  | DTree.branch _ b z o => DTree.branch none b (stripIdx z) (stripIdx o)

/-- Modelled from the spec (the generated decoders are external consumers):
walking the tree, "testing `decision_bit` of the input word at each Branch and
descending into the zero- or one-child accordingly", returning the rule list
of the leaf reached, if any. -/
def walkTree (w : Nat) : DTree → Option (List LeafNode)
  | DTree.empty => none
  | DTree.leaf _ insns => some insns
  | DTree.branch _ b z o => if w.testBit b then walkTree w o else walkTree w z

/-- Modelled from the spec: the match test `(input & rule.mask) == rule.opcode`,
where `rule` is an `InstructionRule` – the original rule as stored in the
`insn` field of a `LeafNode`, whose `mask`/`opcode` the builder never mutates. -/
def insn_matches (w : Nat) (r : Insn) : Bool :=
  (w &&& r.mask) == r.opcode

/-- Modelled from the spec: "scanning that Leaf's rule list in order and
testing `(input & rule.mask) == rule.opcode` for each", returning the first
rule that matches. -/
def leaf_lookup (w : Nat) (insns : List LeafNode) : Option LeafNode :=
  insns.find? (fun n => insn_matches w n.insn)

/-- The precondition on input rules (enforced by the upstream loader):
a `u32` pair whose mask is non-zero and whose opcode has no bit outside the
mask. -/
def InsnWF (r : Insn) : Prop :=
  r.mask ≠ 0 ∧ r.opcode &&& r.mask = r.opcode ∧ r.mask < 2 ^ 32 ∧ r.opcode < 2 ^ 32

/-- The claim's notion of the highest-priority match of `w` among `rules`:
`r` matches `w`; it is most specific (no matching rule has fewer don't-care
bits, i.e. a smaller `count_zeros` of its mask); and at some occurrence of `r`
every earlier matching rule is strictly less specific (input-order
tie-break). -/
def IsHighestPriorityMatch (w : Nat) (rules : List Insn) (r : Insn) : Prop :=
  insn_matches w r = true ∧
  (∀ s ∈ rules, insn_matches w s = true → count_zeros r.mask ≤ count_zeros s.mask) ∧
  ∃ l1 l2, rules = l1 ++ r :: l2 ∧
    ∀ s ∈ l1, insn_matches w s = true → count_zeros r.mask < count_zeros s.mask

-- Totality of the builder: the shift-overflow panic is unreachable because a
-- non-zero 32-bit accumulated mask always has its lowest set bit below 32.

theorem build_total (insns : List LeafNode) :
    ∃ t, build_decision_tree_recursive insns = some t := by
  induction insns using build_decision_tree_recursive.induct with
  | case1 =>
    exact ⟨DTree.empty, by rw [build_decision_tree_recursive.eq_def]; simp⟩
  | case2 =>
    rename_i x hx h1
    refine ⟨DTree.leaf none x, ?_⟩
    rw [build_decision_tree_recursive.eq_def, if_neg hx, if_pos h1]
  | case3 =>
    rename_i x hx h1 hacc
    refine ⟨DTree.leaf none (sort_by_key x), ?_⟩
    rw [build_decision_tree_recursive.eq_def, if_neg hx, if_neg h1, if_pos hacc]
  | case4 =>
    rename_i x hx h1 hacc htz
    exact absurd htz (by
      have := (trailing_zeros_spec hacc (accMask_lt_two_pow x)).1
      omega)
  | case5 =>
    rename_i x hx h1 hacc htz hz ih
    obtain ⟨t, ht⟩ := ih
    refine ⟨t, ?_⟩
    rw [build_decision_tree_recursive.eq_def, if_neg hx, if_neg h1, if_neg hacc,
      if_neg htz, dif_pos hz]
    exact ht
  | case6 =>
    rename_i x hx h1 hacc htz hz ho ih
    obtain ⟨t, ht⟩ := ih
    refine ⟨t, ?_⟩
    rw [build_decision_tree_recursive.eq_def, if_neg hx, if_neg h1, if_neg hacc,
      if_neg htz, dif_neg hz, dif_pos ho]
    exact ht
  | case7 =>
    rename_i x hx h1 hacc htz hz ho zt ot hot hzt ihz iho
    refine ⟨DTree.branch none (trailing_zeros (accMask x)) zt ot, ?_⟩
    rw [build_decision_tree_recursive.eq_def, if_neg hx, if_neg h1, if_neg hacc,
      if_neg htz, dif_neg hz, dif_neg ho, hzt, hot]
  | case8 =>
    rename_i x hx h1 hacc htz hz ho hnone ihz iho
    obtain ⟨tz0, htz0⟩ := ihz
    obtain ⟨to0, hto0⟩ := iho
    exact absurd (hnone tz0 to0 htz0 hto0) (by simp)

-- Case-by-case evaluation equations for the builder; the shift-overflow guard
-- is discharged once and for all here.

theorem tz_guard {x : List LeafNode} (hacc : ¬accMask x = 0) :
    ¬32 ≤ trailing_zeros (accMask x) := by
  have := (trailing_zeros_spec hacc (accMask_lt_two_pow x)).1
  omega

theorem build_eq_nil : build_decision_tree_recursive [] = some DTree.empty := by
  rw [build_decision_tree_recursive.eq_def]
  simp

theorem build_eq_single {x : List LeafNode} (hx : ¬x = []) (h1 : x.length = 1) :
    build_decision_tree_recursive x = some (DTree.leaf none x) := by
  rw [build_decision_tree_recursive.eq_def, if_neg hx, if_pos h1]

theorem build_eq_sorted {x : List LeafNode} (hx : ¬x = []) (h1 : ¬x.length = 1)
    (hacc : accMask x = 0) :
    build_decision_tree_recursive x = some (DTree.leaf none (sort_by_key x)) := by
  rw [build_decision_tree_recursive.eq_def, if_neg hx, if_neg h1, if_pos hacc]

theorem build_eq_continue_one {x : List LeafNode} (hx : ¬x = []) (h1 : ¬x.length = 1)
    (hacc : ¬accMask x = 0)
    (hz : splitZero (1 <<< trailing_zeros (accMask x)) x = []) :
    build_decision_tree_recursive x
      = build_decision_tree_recursive (splitOne (1 <<< trailing_zeros (accMask x)) x) := by
  rw [build_decision_tree_recursive.eq_def, if_neg hx, if_neg h1, if_neg hacc,
    if_neg (tz_guard hacc), dif_pos hz]

theorem build_eq_continue_zero {x : List LeafNode} (hx : ¬x = []) (h1 : ¬x.length = 1)
    (hacc : ¬accMask x = 0)
    (hz : ¬splitZero (1 <<< trailing_zeros (accMask x)) x = [])
    (ho : splitOne (1 <<< trailing_zeros (accMask x)) x = []) :
    build_decision_tree_recursive x
      = build_decision_tree_recursive (splitZero (1 <<< trailing_zeros (accMask x)) x) := by
  rw [build_decision_tree_recursive.eq_def, if_neg hx, if_neg h1, if_neg hacc,
    if_neg (tz_guard hacc), dif_neg hz, dif_pos ho]

theorem build_eq_branch {x : List LeafNode} {zt ot : DTree} (hx : ¬x = [])
    (h1 : ¬x.length = 1) (hacc : ¬accMask x = 0)
    (hz : ¬splitZero (1 <<< trailing_zeros (accMask x)) x = [])
    (ho : ¬splitOne (1 <<< trailing_zeros (accMask x)) x = [])
    (hzt : build_decision_tree_recursive (splitZero (1 <<< trailing_zeros (accMask x)) x)
      = some zt)
    (hot : build_decision_tree_recursive (splitOne (1 <<< trailing_zeros (accMask x)) x)
      = some ot) :
    build_decision_tree_recursive x
      = some (DTree.branch none (trailing_zeros (accMask x)) zt ot) := by
  rw [build_decision_tree_recursive.eq_def, if_neg hx, if_neg h1, if_neg hacc,
    if_neg (tz_guard hacc), dif_neg hz, dif_neg ho, hzt, hot]

-- Generic list lemmas: recovering a split of a list from a split of one of
-- its filters, and stability of the insertion sort with respect to the
-- classes of its sort key.

theorem filter_eq_append_cons {α : Type} {p : α → Bool} :
    ∀ {l a b : List α} {x : α}, l.filter p = a ++ x :: b →
      ∃ l1 l2, l = l1 ++ x :: l2 ∧ l1.filter p = a := by
  intro l
  induction l with
  | nil =>
    intro a b x h
    simp at h
  | cons y rest ih =>
    intro a b x h
    by_cases hy : p y = true
    · rw [List.filter_cons_of_pos hy] at h
      cases a with
      | nil =>
        simp only [List.nil_append] at h
        obtain ⟨h1, h2⟩ := List.cons_eq_cons.mp h
        exact ⟨[], rest, by rw [h1]; rfl, by simp⟩
      | cons a0 a' =>
        simp only [List.cons_append] at h
        obtain ⟨h1, h2⟩ := List.cons_eq_cons.mp h
        obtain ⟨l1, l2, hl, hf⟩ := ih h2
        exact ⟨y :: l1, l2, by rw [hl, List.cons_append], by
          rw [List.filter_cons_of_pos hy, hf, h1]⟩
    · rw [List.filter_cons_of_neg (by simpa using hy)] at h
      obtain ⟨l1, l2, hl, hf⟩ := ih h
      exact ⟨y :: l1, l2, by rw [hl, List.cons_append], by
        rw [List.filter_cons_of_neg (by simpa using hy), hf]⟩

/-- The class of a sort key value `k` inside a rule list. -/
def clsFilter (k : Nat) (l : List LeafNode) : List LeafNode :=
  l.filter (fun n => count_zeros n.mask == k)

theorem clsFilter_orderedInsert (k : Nat) (x : LeafNode) :
    ∀ s : List LeafNode,
      clsFilter k (s.orderedInsert leafLe x) = clsFilter k (x :: s) := by
  intro s
  induction s with
  | nil => rfl
  | cons y s ih =>
    rw [List.orderedInsert]
    by_cases hle : leafLe x y
    · rw [if_pos hle]
    · rw [if_neg hle]
      have hlt : count_zeros y.mask < count_zeros x.mask := by
        simpa [leafLe] using hle
      by_cases hx : count_zeros x.mask = k
      · have hyk : (count_zeros y.mask == k) = false := by
          simp
          omega
        unfold clsFilter at *
        rw [List.filter_cons_of_neg (by simp [hyk]), ih,
          List.filter_cons_of_pos (by simp [hx]),
          List.filter_cons_of_pos (by simp [hx]),
          List.filter_cons_of_neg (by simp [hyk])]
      · unfold clsFilter at *
        by_cases hyk : count_zeros y.mask = k
        · rw [List.filter_cons_of_pos (by simp [hyk]), ih,
            List.filter_cons_of_neg (by simp [hx]),
            List.filter_cons_of_neg (by simp [hx]),
            List.filter_cons_of_pos (by simp [hyk])]
        · rw [List.filter_cons_of_neg (by simp [hyk]), ih,
            List.filter_cons_of_neg (by simp [hx]),
            List.filter_cons_of_neg (by simp [hx]),
            List.filter_cons_of_neg (by simp [hyk])]

theorem clsFilter_sort_by_key (k : Nat) (g : List LeafNode) :
    clsFilter k (sort_by_key g) = clsFilter k g := by
  unfold sort_by_key
  induction g with
  | nil => rfl
  | cons x g ih =>
    rw [List.insertionSort, clsFilter_orderedInsert, clsFilter, clsFilter,
      List.filter_cons, List.filter_cons]
    unfold clsFilter at ih
    rw [ih]

theorem sort_by_key_perm (g : List LeafNode) : List.Perm (sort_by_key g) g :=
  List.perm_insertionSort leafLe g

theorem sort_by_key_pairwise (g : List LeafNode) :
    (sort_by_key g).Pairwise leafLe :=
  List.sorted_insertionSort leafLe g

-- Bit-level lemmas about 32-bit masks.

theorem and_shift_eq_zero_iff (x b : Nat) :
    x &&& 1 <<< b = 0 ↔ x.testBit b = false := by
  rw [Nat.one_shiftLeft]
  constructor
  · intro h
    by_contra hc
    have hbt : x.testBit b = true := by
      cases hx : x.testBit b
      · exact absurd hx hc
      · rfl
    have : (x &&& 2 ^ b).testBit b = true := by
      simp [Nat.testBit_and, hbt, Nat.testBit_two_pow_self]
    rw [h] at this
    simp at this
  · intro h
    apply Nat.eq_of_testBit_eq
    intro j
    simp only [Nat.testBit_and, Nat.zero_testBit]
    by_cases hj : b = j
    · subst hj
      simp [h]
    · simp [Nat.testBit_two_pow_of_ne hj]

theorem shift_and_eq_self {m : Nat} (b : Nat) (h : m.testBit b = true) :
    1 <<< b &&& m = 1 <<< b := by
  rw [Nat.one_shiftLeft]
  apply Nat.eq_of_testBit_eq
  intro j
  simp only [Nat.testBit_and]
  by_cases hj : b = j
  · subst hj
    simp [h, Nat.testBit_two_pow_self]
  · simp [Nat.testBit_two_pow_of_ne hj]

theorem compl_and_compl {C : Nat} (dm : Nat) (hC : C < 2 ^ 32) (hdm : dm < 2 ^ 32) :
    0xFFFFFFFF ^^^ (C &&& (0xFFFFFFFF ^^^ dm)) = (0xFFFFFFFF ^^^ C) ||| dm := by
  apply Nat.eq_of_testBit_eq
  intro i
  simp only [Nat.testBit_xor, Nat.testBit_and, Nat.testBit_or, testBit_u32max]
  by_cases hi : i < 32
  · have hd : decide (i < 32) = true := by simp [hi]
    simp only [hd]
    cases C.testBit i <;> cases dm.testBit i <;> rfl
  · have h1 : C.testBit i = false :=
      Nat.testBit_lt_two_pow (Nat.lt_of_lt_of_le hC
        (Nat.pow_le_pow_right (by norm_num) (by omega)))
    have h2 : dm.testBit i = false :=
      Nat.testBit_lt_two_pow (Nat.lt_of_lt_of_le hdm
        (Nat.pow_le_pow_right (by norm_num) (by omega)))
    simp [hi, h1, h2]

theorem count_zeros_and_of_subset {C m : Nat}
    (h : (0xFFFFFFFF ^^^ C) &&& m = 0xFFFFFFFF ^^^ C) :
    count_zeros (m &&& C) = count_zeros m + count_zeros C := by
  have hmem : ∀ i < 32, C.testBit i = false → m.testBit i = true := by
    intro i hi hCi
    have hbit := congrArg (fun x => Nat.testBit x i) h
    have hd : decide (i < 32) = true := by simp [hi]
    simp only [Nat.testBit_and, Nat.testBit_xor, testBit_u32max, hd, hCi] at hbit
    simpa using hbit
  have hset : (Finset.range 32).filter (fun i => (m &&& C).testBit i = false)
      = ((Finset.range 32).filter (fun i => m.testBit i = false))
        ∪ ((Finset.range 32).filter (fun i => C.testBit i = false)) := by
    rw [← Finset.filter_or]
    apply Finset.filter_congr
    intro i hi
    simp only [Nat.testBit_and]
    cases m.testBit i <;> cases C.testBit i <;> simp
  have hdis : Disjoint ((Finset.range 32).filter (fun i => m.testBit i = false))
      ((Finset.range 32).filter (fun i => C.testBit i = false)) := by
    rw [Finset.disjoint_filter]
    intro i hi hm hCi
    exact absurd (hmem i (Finset.mem_range.mp hi) hCi) (by simp [hm])
  unfold count_zeros
  rw [hset, Finset.card_union_of_disjoint hdis]

-- Characterisation of the split, the group invariant maintained along every
-- path of the recursion, and the routing facts that send every matching rule
-- into the subtree that the walk descends into.

theorem clearDecision_insn (dm : Nat) (n : LeafNode) :
    (clearDecision dm n).insn = n.insn := rfl

theorem map_insn_map_clear (dm : Nat) (l : List LeafNode) :
    (l.map (clearDecision dm)).map LeafNode.insn = l.map LeafNode.insn := by
  induction l with
  | nil => rfl
  | cons n rest ih => simp_all [clearDecision]

theorem splitZero_map_insn (dm : Nat) : ∀ l : List LeafNode,
    (splitZero dm l).map LeafNode.insn
      = (l.map LeafNode.insn).filter (fun i => i.opcode &&& dm == 0) := by
  intro l
  induction l with
  | nil => rfl
  | cons n rest ih =>
    unfold splitZero at *
    simp only [List.map_cons, List.filter_cons]
    cases h : n.insn.opcode &&& dm == 0 <;> simp_all [clearDecision]

theorem splitOne_map_insn (dm : Nat) : ∀ l : List LeafNode,
    (splitOne dm l).map LeafNode.insn
      = (l.map LeafNode.insn).filter (fun i => !(i.opcode &&& dm == 0)) := by
  intro l
  induction l with
  | nil => rfl
  | cons n rest ih =>
    unfold splitOne at *
    simp only [List.map_cons, List.filter_cons]
    cases h : n.insn.opcode &&& dm == 0 <;> simp_all [clearDecision]

theorem mem_splitZero_of {dm : Nat} {l : List LeafNode} {m : LeafNode}
    (hm : m ∈ l) (hop : m.insn.opcode &&& dm = 0) :
    clearDecision dm m ∈ splitZero dm l := by
  unfold splitZero
  exact List.mem_filter.mpr ⟨List.mem_map_of_mem _ hm, by simp [clearDecision, hop]⟩

theorem mem_splitOne_of {dm : Nat} {l : List LeafNode} {m : LeafNode}
    (hm : m ∈ l) (hop : ¬m.insn.opcode &&& dm = 0) :
    clearDecision dm m ∈ splitOne dm l := by
  unfold splitOne
  exact List.mem_filter.mpr ⟨List.mem_map_of_mem _ hm, by simp [clearDecision, hop]⟩

theorem foldl_and_testBit_init {i : Nat} : ∀ (l : List LeafNode) (a : Nat),
    (l.foldl (fun acc insn => acc &&& insn.mask) a).testBit i = true →
    a.testBit i = true := by
  intro l
  induction l with
  | nil => intro a h; exact h
  | cons x rest ih =>
    intro a h
    have := ih _ h
    simp only [Nat.testBit_and, Bool.and_eq_true] at this
    exact this.1

theorem accMask_aux_testBit {i : Nat} : ∀ (l : List LeafNode) (a : Nat),
    (l.foldl (fun acc insn => acc &&& insn.mask) a).testBit i = true →
    ∀ n ∈ l, n.mask.testBit i = true := by
  intro l
  induction l with
  | nil => intro a h n hn; cases hn
  | cons x rest ih =>
    intro a h n hn
    simp only [List.foldl_cons] at h
    rcases List.mem_cons.mp hn with hn | hn
    · subst hn
      have := foldl_and_testBit_init rest _ h
      simp only [Nat.testBit_and, Bool.and_eq_true] at this
      exact this.2
    · exact ih _ h n hn

theorem accMask_testBit {l : List LeafNode} {i : Nat}
    (h : (accMask l).testBit i = true) : ∀ n ∈ l, n.mask.testBit i = true :=
  accMask_aux_testBit l _ h

/-- The invariant of a working group `g` at some point of the recursion: `C` is
the 32-bit mask of not-yet-decided bit positions (all decided positions have
been cleared uniformly from every member), every member's remaining mask is
its rule's mask restricted to `C`, and every decided position was constrained
by every member's rule. -/
def GroupInv (C : Nat) (g : List LeafNode) : Prop :=
  C < 2 ^ 32 ∧ ∀ n ∈ g, n.mask = n.insn.mask &&& C ∧
    (0xFFFFFFFF ^^^ C) &&& n.insn.mask = 0xFFFFFFFF ^^^ C

theorem GroupInv_clear {C : Nat} {g : List LeafNode} {b : Nat} (hb : b < 32)
    (hbit : ∀ n ∈ g, n.mask.testBit b = true) (hinv : GroupInv C g) :
    GroupInv (C &&& (0xFFFFFFFF ^^^ 1 <<< b)) (g.map (clearDecision (1 <<< b))) := by
  obtain ⟨hC, hall⟩ := hinv
  have hdm : (1 : Nat) <<< b < 2 ^ 32 := by
    rw [Nat.one_shiftLeft]
    exact Nat.pow_lt_pow_right (by norm_num) hb
  refine ⟨Nat.lt_of_le_of_lt Nat.and_le_left hC, ?_⟩
  intro n hn
  obtain ⟨m, hm, rfl⟩ := List.mem_map.mp hn
  obtain ⟨hmask, hsub⟩ := hall m hm
  have hmb : m.insn.mask.testBit b = true := by
    have := hbit m hm
    rw [hmask] at this
    simp only [Nat.testBit_and, Bool.and_eq_true] at this
    exact this.1
  constructor
  · show m.mask &&& (0xFFFFFFFF ^^^ 1 <<< b) = _
    rw [hmask, Nat.and_assoc]
    rfl
  · rw [clearDecision_insn, compl_and_compl _ hC hdm, Nat.and_distrib_right,
      hsub, shift_and_eq_self b hmb]

theorem matcher_testBit {w : Nat} {r : Insn} {b : Nat}
    (hm : insn_matches w r = true) (hb : r.mask.testBit b = true) :
    w.testBit b = r.opcode.testBit b := by
  unfold insn_matches at hm
  rw [beq_iff_eq] at hm
  have := congrArg (fun x => Nat.testBit x b) hm
  simp only [Nat.testBit_and, hb, Bool.and_true] at this
  exact this

/-- `r` is the best match for `w` within the working group `g`, stated in
terms of the original rules: `r` matches, no matching rule of the group is
strictly more specific, and at some occurrence of `r` in the group's rule
sequence every earlier matching rule is strictly less specific. -/
def GBest (w : Nat) (g : List LeafNode) (r : Insn) : Prop :=
  insn_matches w r = true ∧
  (∀ s ∈ g.map LeafNode.insn, insn_matches w s = true →
    count_zeros r.mask ≤ count_zeros s.mask) ∧
  ∃ l1 l2, g.map LeafNode.insn = l1 ++ r :: l2 ∧
    ∀ s ∈ l1, insn_matches w s = true → count_zeros r.mask < count_zeros s.mask

theorem leaf_lookup_gbest {C : Nat} {g l : List LeafNode} (w : Nat)
    (hperm : List.Perm l g) (hsorted : l.Pairwise leafLe)
    (hstable : ∀ k, clsFilter k l = clsFilter k g)
    (hshift : ∀ m ∈ g, count_zeros m.mask = count_zeros m.insn.mask + count_zeros C) :
    (leaf_lookup w l = none → ∀ n ∈ g, insn_matches w n.insn = false) ∧
    (∀ n, leaf_lookup w l = some n → GBest w g n.insn) := by
  constructor
  · intro hnone n hn
    have := List.find?_eq_none.mp hnone n (hperm.mem_iff.mpr hn)
    simpa using this
  · intro n hfind
    obtain ⟨hpred, as, bs, hsplit, has⟩ := List.find?_eq_some.mp hfind
    have hng : n ∈ g := by
      apply hperm.mem_iff.mp
      rw [hsplit]
      exact List.mem_append_right _ (List.mem_cons_self _ _)
    have hmin : ∀ s ∈ g.map LeafNode.insn, insn_matches w s = true →
        count_zeros n.insn.mask ≤ count_zeros s.mask := by
      intro s hs hms
      obtain ⟨m, hm, rfl⟩ := List.mem_map.mp hs
      have hml : m ∈ l := hperm.mem_iff.mpr hm
      rw [hsplit] at hml
      rcases List.mem_append.mp hml with hin | hin
      · exact absurd hms (by simpa using has m hin)
      · rcases List.mem_cons.mp hin with hin | hin
        · rw [hin]
        · have hps := hsorted
          rw [hsplit] at hps
          have hle : leafLe n m :=
            (List.pairwise_cons.mp (List.pairwise_append.mp hps).2.1).1 m hin
          have hsn := hshift n hng
          have hsm := hshift m hm
          unfold leafLe at hle
          omega
    refine ⟨hpred, hmin, ?_⟩
    have hcls : g.filter (fun m => count_zeros m.mask == count_zeros n.mask)
        = clsFilter (count_zeros n.mask) as
          ++ n :: clsFilter (count_zeros n.mask) bs := by
      have h0 := hstable (count_zeros n.mask)
      unfold clsFilter at h0 ⊢
      rw [← h0, hsplit, List.filter_append, List.filter_cons_of_pos (by simp)]
    obtain ⟨G1, G2, hG, hGf⟩ := filter_eq_append_cons hcls
    refine ⟨G1.map LeafNode.insn, G2.map LeafNode.insn, ?_, ?_⟩
    · rw [hG, List.map_append, List.map_cons]
    · intro s hs hms
      obtain ⟨m, hmG1, rfl⟩ := List.mem_map.mp hs
      have hmg : m ∈ g := by
        rw [hG]
        exact List.mem_append_left _ hmG1
      have hle := hmin m.insn (List.mem_map_of_mem _ hmg) hms
      by_contra hlt
      have heq : count_zeros n.insn.mask = count_zeros m.insn.mask := by omega
      have hkm : count_zeros m.mask = count_zeros n.mask := by
        rw [hshift m hmg, hshift n hng]
        omega
      have hmf : m ∈ G1.filter (fun m => count_zeros m.mask == count_zeros n.mask) :=
        List.mem_filter.mpr ⟨hmG1, by simp [hkm]⟩
      rw [hGf] at hmf
      have hmas : m ∈ as := List.mem_of_mem_filter hmf
      exact absurd hms (by simpa using has m hmas)

theorem GroupInv_shift {C : Nat} {g : List LeafNode} (h : GroupInv C g) :
    ∀ m ∈ g, count_zeros m.mask = count_zeros m.insn.mask + count_zeros C := by
  intro m hm
  obtain ⟨h1, h2⟩ := h.2 m hm
  rw [h1]
  exact count_zeros_and_of_subset h2

theorem GroupInv_of_subset {C : Nat} {g g' : List LeafNode}
    (hsub : ∀ n ∈ g', n ∈ g) (h : GroupInv C g) : GroupInv C g' :=
  ⟨h.1, fun n hn => h.2 n (hsub n hn)⟩

theorem GBest_of_map_eq {w : Nat} {g1 g2 : List LeafNode} {r : Insn}
    (h : g1.map LeafNode.insn = g2.map LeafNode.insn) (hb : GBest w g1 r) :
    GBest w g2 r := by
  unfold GBest at *
  rwa [h] at hb

theorem best_filter_lift {w : Nat} {p : Insn → Bool} {G : List Insn} {r : Insn}
    (hp : ∀ s ∈ G, insn_matches w s = true → p s = true)
    (h1 : ∀ s ∈ G.filter p, insn_matches w s = true →
      count_zeros r.mask ≤ count_zeros s.mask)
    (h2 : ∃ l1 l2, G.filter p = l1 ++ r :: l2 ∧
      ∀ s ∈ l1, insn_matches w s = true → count_zeros r.mask < count_zeros s.mask) :
    (∀ s ∈ G, insn_matches w s = true → count_zeros r.mask ≤ count_zeros s.mask) ∧
    ∃ l1 l2, G = l1 ++ r :: l2 ∧
      ∀ s ∈ l1, insn_matches w s = true → count_zeros r.mask < count_zeros s.mask := by
  constructor
  · intro s hs hm
    exact h1 s (List.mem_filter.mpr ⟨hs, hp s hs hm⟩) hm
  · obtain ⟨l1, l2, hsplit, hstrict⟩ := h2
    obtain ⟨G1, G2, hG, hGf⟩ := filter_eq_append_cons hsplit
    refine ⟨G1, G2, hG, ?_⟩
    intro s hsG1 hm
    have hsG : s ∈ G := by
      rw [hG]
      exact List.mem_append_left _ hsG1
    have hmemf : s ∈ G1.filter p := List.mem_filter.mpr ⟨hsG1, hp s hsG hm⟩
    rw [hGf] at hmemf
    exact hstrict s hmemf hm

/-- Master correctness lemma for the builder: under the group invariant,
walking a built tree with any word reaches a leaf (for a non-empty group), and
the first matching rule of that leaf is a best match of the whole group — and
if the leaf has no matching rule, no rule of the group matches at all. -/
theorem build_walk_main (g : List LeafNode) :
    ∀ t, build_decision_tree_recursive g = some t →
    ∀ C, GroupInv C g → ∀ w : Nat,
      (g ≠ [] → ∃ l, walkTree w t = some l) ∧
      (∀ l, walkTree w t = some l →
        (leaf_lookup w l = none → ∀ n ∈ g, insn_matches w n.insn = false) ∧
        (∀ n, leaf_lookup w l = some n → GBest w g n.insn)) := by
  induction g using build_decision_tree_recursive.induct with
  | case1 =>
    intro t ht C hinv w
    rw [build_eq_nil] at ht
    obtain rfl : DTree.empty = t := Option.some.inj ht
    refine ⟨fun hne => absurd rfl hne, ?_⟩
    intro l hl
    simp [walkTree] at hl
  | case2 =>
    rename_i x hx h1
    intro t ht C hinv w
    rw [build_eq_single hx h1] at ht
    obtain rfl : DTree.leaf none x = t := Option.some.inj ht
    obtain ⟨m, hm⟩ := List.length_eq_one.mp h1
    have hg := leaf_lookup_gbest (C := C) (g := x) (l := x) w (List.Perm.refl x)
      (by rw [hm]; simp) (fun k => rfl) (GroupInv_shift hinv)
    refine ⟨fun hne => ⟨x, rfl⟩, ?_⟩
    intro l hl
    obtain rfl : x = l := Option.some.inj hl
    exact hg
  | case3 =>
    rename_i x hx h1 hacc
    intro t ht C hinv w
    rw [build_eq_sorted hx h1 hacc] at ht
    obtain rfl : DTree.leaf none (sort_by_key x) = t := Option.some.inj ht
    have hg := leaf_lookup_gbest (C := C) (g := x) (l := sort_by_key x) w
      (sort_by_key_perm x) (sort_by_key_pairwise x)
      (fun k => clsFilter_sort_by_key k x) (GroupInv_shift hinv)
    refine ⟨fun hne => ⟨sort_by_key x, rfl⟩, ?_⟩
    intro l hl
    obtain rfl : sort_by_key x = l := Option.some.inj hl
    exact hg
  | case4 =>
    rename_i x hx h1 hacc htz
    intro t ht C hinv w
    exact absurd htz (tz_guard hacc)
  | case5 =>
    rename_i x hx h1 hacc htz hz ih
    intro t ht C hinv w
    rw [build_eq_continue_one hx h1 hacc hz] at ht
    have hb : trailing_zeros (accMask x) < 32 := by omega
    have hbit : ∀ n ∈ x, n.mask.testBit (trailing_zeros (accMask x)) = true :=
      accMask_testBit (trailing_zeros_spec hacc (accMask_lt_two_pow x)).2
    have hone : splitOne (1 <<< trailing_zeros (accMask x)) x
        = x.map (clearDecision (1 <<< trailing_zeros (accMask x))) :=
      splitZero_nil_splitOne _ x hz
    have hinv2 : GroupInv (C &&& (0xFFFFFFFF ^^^ 1 <<< trailing_zeros (accMask x)))
        (splitOne (1 <<< trailing_zeros (accMask x)) x) := by
      rw [hone]
      exact GroupInv_clear hb hbit hinv
    obtain ⟨p1, p2⟩ := ih t ht _ hinv2 w
    constructor
    · intro hne
      apply p1
      rw [hone]
      simpa using hx
    · intro l hl
      obtain ⟨q1, q2⟩ := p2 l hl
      constructor
      · intro h0 n hn
        cases hmn : insn_matches w n.insn
        · rfl
        · have hmem : clearDecision (1 <<< trailing_zeros (accMask x)) n
              ∈ splitOne (1 <<< trailing_zeros (accMask x)) x := by
            rw [hone]
            exact List.mem_map_of_mem _ hn
          have := q1 h0 _ hmem
          rw [clearDecision_insn, hmn] at this
          cases this
      · intro n hn
        apply GBest_of_map_eq ?_ (q2 n hn)
        rw [hone, map_insn_map_clear]
  | case6 =>
    rename_i x hx h1 hacc htz hz ho ih
    intro t ht C hinv w
    rw [build_eq_continue_zero hx h1 hacc hz ho] at ht
    have hb : trailing_zeros (accMask x) < 32 := by omega
    have hbit : ∀ n ∈ x, n.mask.testBit (trailing_zeros (accMask x)) = true :=
      accMask_testBit (trailing_zeros_spec hacc (accMask_lt_two_pow x)).2
    have hzero : splitZero (1 <<< trailing_zeros (accMask x)) x
        = x.map (clearDecision (1 <<< trailing_zeros (accMask x))) :=
      splitOne_nil_splitZero _ x ho
    have hinv2 : GroupInv (C &&& (0xFFFFFFFF ^^^ 1 <<< trailing_zeros (accMask x)))
        (splitZero (1 <<< trailing_zeros (accMask x)) x) := by
      rw [hzero]
      exact GroupInv_clear hb hbit hinv
    obtain ⟨p1, p2⟩ := ih t ht _ hinv2 w
    constructor
    · intro hne
      apply p1
      rw [hzero]
      simpa using hx
    · intro l hl
      obtain ⟨q1, q2⟩ := p2 l hl
      constructor
      · intro h0 n hn
        cases hmn : insn_matches w n.insn
        · rfl
        · have hmem : clearDecision (1 <<< trailing_zeros (accMask x)) n
              ∈ splitZero (1 <<< trailing_zeros (accMask x)) x := by
            rw [hzero]
            exact List.mem_map_of_mem _ hn
          have := q1 h0 _ hmem
          rw [clearDecision_insn, hmn] at this
          cases this
      · intro n hn
        apply GBest_of_map_eq ?_ (q2 n hn)
        rw [hzero, map_insn_map_clear]
  | case7 =>
    rename_i x hx h1 hacc htz hz ho zt ot hot hzt ihz iho
    intro t ht C hinv w
    rw [build_eq_branch hx h1 hacc hz ho hzt hot] at ht
    obtain rfl : DTree.branch none (trailing_zeros (accMask x)) zt ot = t :=
      Option.some.inj ht
    have hb : trailing_zeros (accMask x) < 32 := by omega
    have hbit : ∀ n ∈ x, n.mask.testBit (trailing_zeros (accMask x)) = true :=
      accMask_testBit (trailing_zeros_spec hacc (accMask_lt_two_pow x)).2
    have hinsnbit : ∀ n ∈ x, n.insn.mask.testBit (trailing_zeros (accMask x)) = true := by
      intro n hn
      have h2 := hbit n hn
      rw [(hinv.2 n hn).1] at h2
      simp only [Nat.testBit_and, Bool.and_eq_true] at h2
      exact h2.1
    have hsubz : ∀ n ∈ splitZero (1 <<< trailing_zeros (accMask x)) x,
        n ∈ x.map (clearDecision (1 <<< trailing_zeros (accMask x))) := by
      intro n hn
      exact List.mem_of_mem_filter hn
    have hsubo : ∀ n ∈ splitOne (1 <<< trailing_zeros (accMask x)) x,
        n ∈ x.map (clearDecision (1 <<< trailing_zeros (accMask x))) := by
      intro n hn
      exact List.mem_of_mem_filter hn
    have hinvz : GroupInv (C &&& (0xFFFFFFFF ^^^ 1 <<< trailing_zeros (accMask x)))
        (splitZero (1 <<< trailing_zeros (accMask x)) x) :=
      GroupInv_of_subset hsubz (GroupInv_clear hb hbit hinv)
    have hinvo : GroupInv (C &&& (0xFFFFFFFF ^^^ 1 <<< trailing_zeros (accMask x)))
        (splitOne (1 <<< trailing_zeros (accMask x)) x) :=
      GroupInv_of_subset hsubo (GroupInv_clear hb hbit hinv)
    cases hw : w.testBit (trailing_zeros (accMask x))
    · -- the walk descends into the zero child
      have hwalk : walkTree w (DTree.branch none (trailing_zeros (accMask x)) zt ot)
          = walkTree w zt := by
        simp [walkTree, hw]
      have hroute : ∀ m ∈ x, insn_matches w m.insn = true →
          m.insn.opcode &&& 1 <<< trailing_zeros (accMask x) = 0 := by
        intro m hm hmm
        have hob := matcher_testBit hmm (hinsnbit m hm)
        rw [hw] at hob
        exact (and_shift_eq_zero_iff _ _).mpr hob.symm
      obtain ⟨p1, p2⟩ := ihz zt hzt _ hinvz w
      constructor
      · intro hne
        rw [hwalk]
        exact p1 hz
      · intro l hl
        rw [hwalk] at hl
        obtain ⟨q1, q2⟩ := p2 l hl
        constructor
        · intro h0 n hn
          cases hmn : insn_matches w n.insn
          · rfl
          · have hmem := mem_splitZero_of hn (hroute n hn hmn)
            have := q1 h0 _ hmem
            rw [clearDecision_insn, hmn] at this
            cases this
        · intro n hn
          have hbest := q2 n hn
          obtain ⟨hbm, hb1, hb2⟩ := hbest
          rw [splitZero_map_insn] at hb1 hb2
          have hlift := best_filter_lift
            (p := fun i => i.opcode &&& 1 <<< trailing_zeros (accMask x) == 0)
            ?_ hb1 hb2
          · exact ⟨hbm, hlift.1, hlift.2⟩
          · intro s hs hms
            obtain ⟨m, hm, rfl⟩ := List.mem_map.mp hs
            simpa using hroute m hm hms
    · -- the walk descends into the one child
      have hwalk : walkTree w (DTree.branch none (trailing_zeros (accMask x)) zt ot)
          = walkTree w ot := by
        simp [walkTree, hw]
      have hroute : ∀ m ∈ x, insn_matches w m.insn = true →
          ¬m.insn.opcode &&& 1 <<< trailing_zeros (accMask x) = 0 := by
        intro m hm hmm hzero
        have hob := matcher_testBit hmm (hinsnbit m hm)
        rw [hw] at hob
        rw [(and_shift_eq_zero_iff _ _).mp hzero] at hob
        cases hob
      obtain ⟨p1, p2⟩ := iho ot hot _ hinvo w
      constructor
      · intro hne
        rw [hwalk]
        exact p1 ho
      · intro l hl
        rw [hwalk] at hl
        obtain ⟨q1, q2⟩ := p2 l hl
        constructor
        · intro h0 n hn
          cases hmn : insn_matches w n.insn
          · rfl
          · have hmem := mem_splitOne_of hn (hroute n hn hmn)
            have := q1 h0 _ hmem
            rw [clearDecision_insn, hmn] at this
            cases this
        · intro n hn
          have hbest := q2 n hn
          obtain ⟨hbm, hb1, hb2⟩ := hbest
          rw [splitOne_map_insn] at hb1 hb2
          have hlift := best_filter_lift
            (p := fun i => !(i.opcode &&& 1 <<< trailing_zeros (accMask x) == 0))
            ?_ hb1 hb2
          · exact ⟨hbm, hlift.1, hlift.2⟩
          · intro s hs hms
            obtain ⟨m, hm, rfl⟩ := List.mem_map.mp hs
            simpa using hroute m hm hms
  | case8 =>
    rename_i x hx h1 hacc htz hz ho hnone ihz iho
    intro t ht C hinv w
    obtain ⟨tz0, htz0⟩ := build_total (splitZero (1 <<< trailing_zeros (accMask x)) x)
    obtain ⟨to0, hto0⟩ := build_total (splitOne (1 <<< trailing_zeros (accMask x)) x)
    exact absurd (hnone tz0 to0 htz0 hto0) (by simp)

-- Index assignment rewrites only the index fields: stripping indexes undoes
-- it, so every shape- and content-observation factors through `stripIdx`.

theorem stripIdx_assign_dfs : ∀ (t : DTree) (i : Nat),
    stripIdx (assign_indexes_dfs t i).1 = stripIdx t := by
  intro t
  induction t with
  | empty => intro i; rfl
  | leaf idx insns => intro i; rfl
  | branch idx b z o ihz iho =>
    intro i
    simp only [assign_indexes_dfs, stripIdx]
    rw [ihz, iho]

theorem bfs_go_strip : ∀ (i : Nat) (L : List DTree),
    (bfs_go i L).map stripIdx = L.map stripIdx := by
  intro i L
  induction i, L using bfs_go.induct with
  | case1 => simp [bfs_go]
  | case2 index rest ih =>
    rw [show bfs_go index (DTree.empty :: rest) = DTree.empty :: bfs_go index rest
      from by rw [bfs_go]]
    simp only [List.map_cons, ih]
  | case3 index idx insns rest ih =>
    rw [show bfs_go index (DTree.leaf idx insns :: rest)
        = DTree.leaf (some index) insns :: bfs_go (index + 1) rest
      from by rw [bfs_go]]
    simp only [List.map_cons, ih, stripIdx]
  | case4 index idx b z o rest ozr zr restr heq ih =>
    rw [show bfs_go index (DTree.branch idx b z o :: rest)
        = DTree.branch (some index) b zr ozr :: restr
      from by rw [bfs_go, heq]]
    rw [heq] at ih
    simp only [List.map_cons] at ih ⊢
    obtain ⟨e1, e2, e3⟩ : stripIdx ozr = stripIdx o ∧ stripIdx zr = stripIdx z
        ∧ restr.map stripIdx = rest.map stripIdx := by
      obtain ⟨a1, h2⟩ := List.cons_eq_cons.mp ih
      obtain ⟨a2, a3⟩ := List.cons_eq_cons.mp h2
      exact ⟨a1, a2, a3⟩
    simp only [stripIdx, e1, e2, e3]
  | case5 index idx b z o rest hnone ih =>
    exfalso
    have hlen := congrArg List.length ih
    simp only [List.length_map, List.length_cons] at hlen
    cases hb : bfs_go (index + 1) (o :: z :: rest) with
    | nil => rw [hb] at hlen; simp at hlen
    | cons a rest1 =>
      cases rest1 with
      | nil => rw [hb] at hlen; simp at hlen
      | cons a2 rest2 => exact hnone a a2 rest2 hb

theorem bfs_go_length (i : Nat) (L : List DTree) :
    (bfs_go i L).length = L.length := by
  have h := congrArg List.length (bfs_go_strip i L)
  simpa using h

theorem stripIdx_assign_bfs (t : DTree) :
    stripIdx (assign_indexes_bfs t) = stripIdx t := by
  unfold assign_indexes_bfs
  have h := bfs_go_strip 0 [t]
  cases hb : bfs_go 0 [t] with
  | nil => rw [hb] at h; simp at h
  | cons a rest =>
    rw [hb] at h
    simp only [List.map_cons, List.map_nil] at h
    obtain ⟨h1, h2⟩ := List.cons_eq_cons.mp h
    simpa using h1

theorem stripIdx_assign (t : DTree) (idx : DecisionTreeIndexing) :
    stripIdx (assign_indexes t idx) = stripIdx t := by
  cases idx with
  | None => rfl
  | DFS => exact stripIdx_assign_dfs t 0
  | BFS => exact stripIdx_assign_bfs t

theorem walkTree_stripIdx (w : Nat) : ∀ t : DTree,
    walkTree w (stripIdx t) = walkTree w t := by
  intro t
  induction t with
  | empty => rfl
  | leaf idx insns => rfl
  | branch idx b z o ihz iho =>
    simp only [stripIdx, walkTree]
    rw [ihz, iho]

theorem leafLists_stripIdx : ∀ t : DTree, leafLists (stripIdx t) = leafLists t := by
  intro t
  induction t with
  | empty => rfl
  | leaf idx insns => rfl
  | branch idx b z o ihz iho =>
    simp only [stripIdx, leafLists]
    rw [ihz, iho]

theorem leafEntries_stripIdx : ∀ (t : DTree) (p : Nat),
    leafEntries p (stripIdx t) = leafEntries p t := by
  intro t
  induction t with
  | empty => intro p; rfl
  | leaf idx insns => intro p; rfl
  | branch idx b z o ihz iho =>
    intro p
    simp only [stripIdx, leafEntries]
    rw [ihz, iho]

-- Unpacking the top-level entry point.

theorem build_decision_tree_elim {rules : List Insn} {idx : DecisionTreeIndexing}
    {t : DTree} (h : build_decision_tree rules idx = some t) :
    ∃ t0, build_decision_tree_recursive
        (rules.map (fun insn => { insn := insn, mask := insn.mask })) = some t0
      ∧ t = assign_indexes t0 idx := by
  unfold build_decision_tree at h
  cases hb : build_decision_tree_recursive
      (rules.map (fun insn => { insn := insn, mask := insn.mask })) with
  | none => rw [hb] at h; cases h
  | some t0 =>
    rw [hb] at h
    exact ⟨t0, rfl, (Option.some.inj h).symm⟩

theorem g0_map_insn (rules : List Insn) :
    (rules.map (fun insn => ({ insn := insn, mask := insn.mask } : LeafNode))).map
      LeafNode.insn = rules := by
  induction rules with
  | nil => rfl
  | cons r rest ih => simp_all

theorem GroupInv_init {rules : List Insn} (hwf : ∀ r ∈ rules, InsnWF r) :
    GroupInv 0xFFFFFFFF
      (rules.map (fun insn => ({ insn := insn, mask := insn.mask } : LeafNode))) := by
  refine ⟨by norm_num, ?_⟩
  intro n hn
  obtain ⟨r, hr, rfl⟩ := List.mem_map.mp hn
  obtain ⟨h1, h2, h3, h4⟩ := hwf r hr
  constructor
  · show r.mask = r.mask &&& 0xFFFFFFFF
    rw [show (0xFFFFFFFF : Nat) = 2 ^ 32 - 1 from by norm_num]
    exact (Nat.and_pow_two_sub_one_of_lt_two_pow h3).symm
  · show (0xFFFFFFFF ^^^ 0xFFFFFFFF) &&& r.mask = 0xFFFFFFFF ^^^ 0xFFFFFFFF
    simp [Nat.xor_self]

theorem build_leaves_perm (g : List LeafNode) :
    ∀ t, build_decision_tree_recursive g = some t →
    List.Perm ((leafLists t).flatten.map LeafNode.insn) (g.map LeafNode.insn) := by
  induction g using build_decision_tree_recursive.induct with
  | case1 =>
    intro t ht
    rw [build_eq_nil] at ht
    obtain rfl : DTree.empty = t := Option.some.inj ht
    simp [leafLists]
  | case2 =>
    rename_i x hx h1
    intro t ht
    rw [build_eq_single hx h1] at ht
    obtain rfl : DTree.leaf none x = t := Option.some.inj ht
    simp [leafLists]
  | case3 =>
    rename_i x hx h1 hacc
    intro t ht
    rw [build_eq_sorted hx h1 hacc] at ht
    obtain rfl : DTree.leaf none (sort_by_key x) = t := Option.some.inj ht
    simp only [leafLists, List.flatten_cons, List.flatten_nil, List.append_nil]
    exact (sort_by_key_perm x).map LeafNode.insn
  | case4 =>
    rename_i x hx h1 hacc htz
    intro t ht
    exact absurd htz (tz_guard hacc)
  | case5 =>
    rename_i x hx h1 hacc htz hz ih
    intro t ht
    rw [build_eq_continue_one hx h1 hacc hz] at ht
    have h := ih t ht
    rwa [splitZero_nil_splitOne _ x hz, map_insn_map_clear] at h
  | case6 =>
    rename_i x hx h1 hacc htz hz ho ih
    intro t ht
    rw [build_eq_continue_zero hx h1 hacc hz ho] at ht
    have h := ih t ht
    rwa [splitOne_nil_splitZero _ x ho, map_insn_map_clear] at h
  | case7 =>
    rename_i x hx h1 hacc htz hz ho zt ot hot hzt ihz iho
    intro t ht
    rw [build_eq_branch hx h1 hacc hz ho hzt hot] at ht
    obtain rfl : DTree.branch none (trailing_zeros (accMask x)) zt ot = t :=
      Option.some.inj ht
    have hhz := ihz zt hzt
    have hho := iho ot hot
    simp only [leafLists, List.flatten_append, List.map_append]
    have step1 := List.Perm.append hhz hho
    rw [splitZero_map_insn, splitOne_map_insn] at step1
    exact step1.trans (List.filter_append_perm _ _)
  | case8 =>
    rename_i x hx h1 hacc htz hz ho hnone ihz iho
    intro t ht
    obtain ⟨tz0, htz0⟩ := build_total (splitZero (1 <<< trailing_zeros (accMask x)) x)
    obtain ⟨to0, hto0⟩ := build_total (splitOne (1 <<< trailing_zeros (accMask x)) x)
    exact absurd (hnone tz0 to0 htz0 hto0) (by simp)

theorem build_leaves_sorted (g : List LeafNode) :
    ∀ t, build_decision_tree_recursive g = some t →
    ∀ l ∈ leafLists t, l.Pairwise leafLe ∧
      ∀ k, List.Sublist ((clsFilter k l).map LeafNode.insn) (g.map LeafNode.insn) := by
  induction g using build_decision_tree_recursive.induct with
  | case1 =>
    intro t ht
    rw [build_eq_nil] at ht
    obtain rfl : DTree.empty = t := Option.some.inj ht
    intro l hl
    cases hl
  | case2 =>
    rename_i x hx h1
    intro t ht
    rw [build_eq_single hx h1] at ht
    obtain rfl : DTree.leaf none x = t := Option.some.inj ht
    intro l hl
    obtain rfl : l = x := by simpa [leafLists] using hl
    obtain ⟨m, rfl⟩ := List.length_eq_one.mp h1
    exact ⟨by simp, fun k => (List.filter_sublist _).map LeafNode.insn⟩
  | case3 =>
    rename_i x hx h1 hacc
    intro t ht
    rw [build_eq_sorted hx h1 hacc] at ht
    obtain rfl : DTree.leaf none (sort_by_key x) = t := Option.some.inj ht
    intro l hl
    obtain rfl : l = sort_by_key x := by simpa [leafLists] using hl
    refine ⟨sort_by_key_pairwise x, fun k => ?_⟩
    rw [show clsFilter k (sort_by_key x) = clsFilter k x from clsFilter_sort_by_key k x]
    exact (List.filter_sublist _).map LeafNode.insn
  | case4 =>
    rename_i x hx h1 hacc htz
    intro t ht
    exact absurd htz (tz_guard hacc)
  | case5 =>
    rename_i x hx h1 hacc htz hz ih
    intro t ht
    rw [build_eq_continue_one hx h1 hacc hz] at ht
    intro l hl
    obtain ⟨hp, hs⟩ := ih t ht l hl
    refine ⟨hp, fun k => ?_⟩
    have := hs k
    rwa [splitZero_nil_splitOne _ x hz, map_insn_map_clear] at this
  | case6 =>
    rename_i x hx h1 hacc htz hz ho ih
    intro t ht
    rw [build_eq_continue_zero hx h1 hacc hz ho] at ht
    intro l hl
    obtain ⟨hp, hs⟩ := ih t ht l hl
    refine ⟨hp, fun k => ?_⟩
    have := hs k
    rwa [splitOne_nil_splitZero _ x ho, map_insn_map_clear] at this
  | case7 =>
    rename_i x hx h1 hacc htz hz ho zt ot hot hzt ihz iho
    intro t ht
    rw [build_eq_branch hx h1 hacc hz ho hzt hot] at ht
    obtain rfl : DTree.branch none (trailing_zeros (accMask x)) zt ot = t :=
      Option.some.inj ht
    intro l hl
    simp only [leafLists, List.mem_append] at hl
    rcases hl with hl | hl
    · obtain ⟨hp, hs⟩ := ihz zt hzt l hl
      refine ⟨hp, fun k => ?_⟩
      have h2 := hs k
      rw [splitZero_map_insn] at h2
      exact h2.trans (List.filter_sublist _)
    · obtain ⟨hp, hs⟩ := iho ot hot l hl
      refine ⟨hp, fun k => ?_⟩
      have h2 := hs k
      rw [splitOne_map_insn] at h2
      exact h2.trans (List.filter_sublist _)
  | case8 =>
    rename_i x hx h1 hacc htz hz ho hnone ihz iho
    intro t ht
    obtain ⟨tz0, htz0⟩ := build_total (splitZero (1 <<< trailing_zeros (accMask x)) x)
    obtain ⟨to0, hto0⟩ := build_total (splitOne (1 <<< trailing_zeros (accMask x)) x)
    exact absurd (hnone tz0 to0 htz0 hto0) (by simp)

theorem and_right_comm_nat (a b c : Nat) : a &&& b &&& c = a &&& c &&& b := by
  apply Nat.eq_of_testBit_eq
  intro i
  simp only [Nat.testBit_and]
  cases a.testBit i <;> cases b.testBit i <;> cases c.testBit i <;> rfl

theorem and_compl_self {dm : Nat} (h : dm < 2 ^ 32) :
    dm &&& (0xFFFFFFFF ^^^ dm) = 0 := by
  apply Nat.eq_of_testBit_eq
  intro i
  simp only [Nat.testBit_and, Nat.testBit_xor, testBit_u32max, Nat.zero_testBit]
  by_cases hi : i < 32
  · have hd : decide (i < 32) = true := by simp [hi]
    simp only [hd]
    cases dm.testBit i <;> rfl
  · have h1 : dm.testBit i = false :=
      Nat.testBit_lt_two_pow (Nat.lt_of_lt_of_le h
        (Nat.pow_le_pow_right (by norm_num) (by omega)))
    simp [h1]

theorem clearDecision_mask (dm : Nat) (n : LeafNode) :
    (clearDecision dm n).mask = n.mask &&& (0xFFFFFFFF ^^^ dm) := rfl

theorem entry_inv_clear {p dm : Nat} {x : List LeafNode}
    (hdm0 : dm &&& (0xFFFFFFFF ^^^ dm) = 0)
    (hp1 : ∀ n ∈ x, p &&& n.mask = 0)
    (hp2 : ∀ n ∈ x, p &&& n.insn.mask = p)
    (hmask : ∀ n ∈ x, n.mask &&& n.insn.mask = n.mask)
    (hinsnb : ∀ n ∈ x, dm &&& n.insn.mask = dm) :
    (∀ n ∈ x.map (clearDecision dm), (p ||| dm) &&& n.mask = 0) ∧
    (∀ n ∈ x.map (clearDecision dm), (p ||| dm) &&& n.insn.mask = p ||| dm) ∧
    (∀ n ∈ x.map (clearDecision dm), n.mask &&& n.insn.mask = n.mask) := by
  refine ⟨?_, ?_, ?_⟩ <;>
    (intro n hn; obtain ⟨m, hm, rfl⟩ := List.mem_map.mp hn;
     simp only [clearDecision_mask, clearDecision_insn])
  · rw [Nat.and_distrib_right, ← Nat.and_assoc, hp1 m hm]
    have hstep : dm &&& (m.mask &&& (0xFFFFFFFF ^^^ dm)) = 0 := by
      apply Nat.eq_of_testBit_eq
      intro i
      have h2 := congrArg (fun y => Nat.testBit y i) hdm0
      simp only [Nat.testBit_and, Nat.zero_testBit] at h2 ⊢
      cases hdmi : dm.testBit i <;>
        cases hci : ((0xFFFFFFFF : Nat) ^^^ dm).testBit i <;> simp_all
    rw [hstep]
    apply Nat.eq_of_testBit_eq
    intro i
    simp
  · rw [Nat.and_distrib_right, hp2 m hm, hinsnb m hm]
  · rw [and_right_comm_nat, hmask m hm]

theorem entry_inv_same {p dm : Nat} {x : List LeafNode}
    (hp1 : ∀ n ∈ x, p &&& n.mask = 0)
    (hp2 : ∀ n ∈ x, p &&& n.insn.mask = p)
    (hmask : ∀ n ∈ x, n.mask &&& n.insn.mask = n.mask) :
    (∀ n ∈ x.map (clearDecision dm), p &&& n.mask = 0) ∧
    (∀ n ∈ x.map (clearDecision dm), p &&& n.insn.mask = p) ∧
    (∀ n ∈ x.map (clearDecision dm), n.mask &&& n.insn.mask = n.mask) := by
  refine ⟨?_, ?_, ?_⟩ <;>
    (intro n hn; obtain ⟨m, hm, rfl⟩ := List.mem_map.mp hn;
     simp only [clearDecision_mask, clearDecision_insn])
  · rw [← Nat.and_assoc, hp1 m hm]
    apply Nat.eq_of_testBit_eq
    intro i
    simp
  · exact hp2 m hm
  · rw [and_right_comm_nat, hmask m hm]

theorem build_leafEntries (g : List LeafNode) :
    ∀ t, build_decision_tree_recursive g = some t →
    ∀ p : Nat,
      (∀ n ∈ g, p &&& n.mask = 0) →
      (∀ n ∈ g, p &&& n.insn.mask = p) →
      (∀ n ∈ g, n.mask &&& n.insn.mask = n.mask) →
      ∀ e ∈ leafEntries p t,
        (e.1 ||| e.2.mask) &&& e.2.insn.mask = e.1 ||| e.2.mask ∧
        e.1 &&& e.2.mask = 0 := by
  induction g using build_decision_tree_recursive.induct with
  | case1 =>
    intro t ht p hp1 hp2 hmask e he
    rw [build_eq_nil] at ht
    obtain rfl : DTree.empty = t := Option.some.inj ht
    cases he
  | case2 =>
    rename_i x hx h1
    intro t ht p hp1 hp2 hmask e he
    rw [build_eq_single hx h1] at ht
    obtain rfl : DTree.leaf none x = t := Option.some.inj ht
    simp only [leafEntries, List.mem_map] at he
    obtain ⟨n, hn, rfl⟩ := he
    refine ⟨?_, hp1 n hn⟩
    rw [Nat.and_distrib_right, hp2 n hn, hmask n hn]
  | case3 =>
    rename_i x hx h1 hacc
    intro t ht p hp1 hp2 hmask e he
    rw [build_eq_sorted hx h1 hacc] at ht
    obtain rfl : DTree.leaf none (sort_by_key x) = t := Option.some.inj ht
    simp only [leafEntries, List.mem_map] at he
    obtain ⟨n, hn, rfl⟩ := he
    have hnx : n ∈ x := (sort_by_key_perm x).mem_iff.mp hn
    refine ⟨?_, hp1 n hnx⟩
    rw [Nat.and_distrib_right, hp2 n hnx, hmask n hnx]
  | case4 =>
    rename_i x hx h1 hacc htz
    intro t ht
    exact absurd htz (tz_guard hacc)
  | case5 =>
    rename_i x hx h1 hacc htz hz ih
    intro t ht p hp1 hp2 hmask e he
    rw [build_eq_continue_one hx h1 hacc hz] at ht
    have hone := splitZero_nil_splitOne _ x hz
    obtain ⟨q1, q2, q3⟩ := @entry_inv_same p (1 <<< trailing_zeros (accMask x))
      x hp1 hp2 hmask
    rw [← hone] at q1 q2 q3
    exact ih t ht p q1 q2 q3 e he
  | case6 =>
    rename_i x hx h1 hacc htz hz ho ih
    intro t ht p hp1 hp2 hmask e he
    rw [build_eq_continue_zero hx h1 hacc hz ho] at ht
    have hzero := splitOne_nil_splitZero _ x ho
    obtain ⟨q1, q2, q3⟩ := @entry_inv_same p (1 <<< trailing_zeros (accMask x))
      x hp1 hp2 hmask
    rw [← hzero] at q1 q2 q3
    exact ih t ht p q1 q2 q3 e he
  | case7 =>
    rename_i x hx h1 hacc htz hz ho zt ot hot hzt ihz iho
    intro t ht p hp1 hp2 hmask e he
    rw [build_eq_branch hx h1 hacc hz ho hzt hot] at ht
    obtain rfl : DTree.branch none (trailing_zeros (accMask x)) zt ot = t :=
      Option.some.inj ht
    have hb : trailing_zeros (accMask x) < 32 := by omega
    have hdm : (1 : Nat) <<< trailing_zeros (accMask x) < 2 ^ 32 := by
      rw [Nat.one_shiftLeft]
      exact Nat.pow_lt_pow_right (by norm_num) hb
    have hbit : ∀ n ∈ x, n.mask.testBit (trailing_zeros (accMask x)) = true :=
      accMask_testBit (trailing_zeros_spec hacc (accMask_lt_two_pow x)).2
    have hinsnb : ∀ n ∈ x,
        1 <<< trailing_zeros (accMask x) &&& n.insn.mask
          = 1 <<< trailing_zeros (accMask x) := by
      intro n hn
      apply shift_and_eq_self
      have h2 := congrArg (fun y => Nat.testBit y (trailing_zeros (accMask x)))
        (hmask n hn)
      simp only [Nat.testBit_and, hbit n hn, Bool.true_and] at h2
      exact h2
    obtain ⟨q1, q2, q3⟩ := entry_inv_clear (and_compl_self hdm) hp1 hp2 hmask hinsnb
    simp only [leafEntries, List.mem_append] at he
    rcases he with he | he
    · refine ihz zt hzt (p ||| 1 <<< trailing_zeros (accMask x)) ?_ ?_ ?_ e he <;>
        intro n hn
      · exact q1 n (List.mem_of_mem_filter hn)
      · exact q2 n (List.mem_of_mem_filter hn)
      · exact q3 n (List.mem_of_mem_filter hn)
    · refine iho ot hot (p ||| 1 <<< trailing_zeros (accMask x)) ?_ ?_ ?_ e he <;>
        intro n hn
      · exact q1 n (List.mem_of_mem_filter hn)
      · exact q2 n (List.mem_of_mem_filter hn)
      · exact q3 n (List.mem_of_mem_filter hn)
  | case8 =>
    rename_i x hx h1 hacc htz hz ho hnone ihz iho
    intro t ht
    obtain ⟨tz0, htz0⟩ := build_total (splitZero (1 <<< trailing_zeros (accMask x)) x)
    obtain ⟨to0, hto0⟩ := build_total (splitOne (1 <<< trailing_zeros (accMask x)) x)
    exact absurd (hnone tz0 to0 htz0 hto0) (by simp)

/-- No Branch node of the tree has an empty (absent) child subtree. -/
def noEmptyChildren : DTree → Prop
  | DTree.empty => True
  | DTree.leaf _ _ => True
  | DTree.branch _ _ z o =>
    z ≠ DTree.empty ∧ o ≠ DTree.empty ∧ noEmptyChildren z ∧ noEmptyChildren o

theorem build_no_empty (g : List LeafNode) :
    ∀ t, build_decision_tree_recursive g = some t →
      noEmptyChildren t ∧ (g ≠ [] → t ≠ DTree.empty) := by
  induction g using build_decision_tree_recursive.induct with
  | case1 =>
    intro t ht
    rw [build_eq_nil] at ht
    obtain rfl : DTree.empty = t := Option.some.inj ht
    exact ⟨trivial, fun h => absurd rfl h⟩
  | case2 =>
    rename_i x hx h1
    intro t ht
    rw [build_eq_single hx h1] at ht
    obtain rfl : DTree.leaf none x = t := Option.some.inj ht
    exact ⟨trivial, fun h hc => by cases hc⟩
  | case3 =>
    rename_i x hx h1 hacc
    intro t ht
    rw [build_eq_sorted hx h1 hacc] at ht
    obtain rfl : DTree.leaf none (sort_by_key x) = t := Option.some.inj ht
    exact ⟨trivial, fun h hc => by cases hc⟩
  | case4 =>
    rename_i x hx h1 hacc htz
    intro t ht
    exact absurd htz (tz_guard hacc)
  | case5 =>
    rename_i x hx h1 hacc htz hz ih
    intro t ht
    rw [build_eq_continue_one hx h1 hacc hz] at ht
    obtain ⟨hne, hempty⟩ := ih t ht
    refine ⟨hne, fun h => hempty ?_⟩
    rw [splitZero_nil_splitOne _ x hz]
    simpa using hx
  | case6 =>
    rename_i x hx h1 hacc htz hz ho ih
    intro t ht
    rw [build_eq_continue_zero hx h1 hacc hz ho] at ht
    obtain ⟨hne, hempty⟩ := ih t ht
    refine ⟨hne, fun h => hempty ?_⟩
    rw [splitOne_nil_splitZero _ x ho]
    simpa using hx
  | case7 =>
    rename_i x hx h1 hacc htz hz ho zt ot hot hzt ihz iho
    intro t ht
    rw [build_eq_branch hx h1 hacc hz ho hzt hot] at ht
    obtain rfl : DTree.branch none (trailing_zeros (accMask x)) zt ot = t :=
      Option.some.inj ht
    obtain ⟨hz1, hz2⟩ := ihz zt hzt
    obtain ⟨ho1, ho2⟩ := iho ot hot
    exact ⟨⟨hz2 hz, ho2 ho, hz1, ho1⟩, fun h hc => by cases hc⟩
  | case8 =>
    rename_i x hx h1 hacc htz hz ho hnone ihz iho
    intro t ht
    obtain ⟨tz0, htz0⟩ := build_total (splitZero (1 <<< trailing_zeros (accMask x)) x)
    obtain ⟨to0, hto0⟩ := build_total (splitOne (1 <<< trailing_zeros (accMask x)) x)
    exact absurd (hnone tz0 to0 htz0 hto0) (by simp)

theorem stripIdx_eq_empty {t : DTree} : stripIdx t = DTree.empty ↔ t = DTree.empty := by
  cases t <;> simp [stripIdx]

theorem noEmptyChildren_strip : ∀ t : DTree,
    noEmptyChildren (stripIdx t) ↔ noEmptyChildren t := by
  intro t
  induction t with
  | empty => exact Iff.rfl
  | leaf idx insns => exact Iff.rfl
  | branch idx b z o ihz iho =>
    simp only [stripIdx, noEmptyChildren]
    rw [ihz, iho]
    constructor
    · rintro ⟨a1, a2, a3, a4⟩
      exact ⟨fun h => a1 (by rw [h]; rfl), fun h => a2 (by rw [h]; rfl), a3, a4⟩
    · rintro ⟨a1, a2, a3, a4⟩
      exact ⟨fun h => a1 (stripIdx_eq_empty.mp h), fun h => a2 (stripIdx_eq_empty.mp h),
        a3, a4⟩

theorem assign_dfs_spec : ∀ (t : DTree) (i : Nat),
    collectIndices (assign_indexes_dfs t i).1 = (List.range' i (treeSize t)).map some
    ∧ (assign_indexes_dfs t i).2 = i + treeSize t := by
  intro t
  induction t with
  | empty => intro i; exact ⟨rfl, by simp [assign_indexes_dfs, treeSize]⟩
  | leaf idx insns =>
    intro i
    simp [assign_indexes_dfs, treeSize, collectIndices, List.range'_succ]
  | branch idx b z o ihz iho =>
    intro i
    obtain ⟨hz1, hz2⟩ := ihz (i + 1)
    obtain ⟨ho1, ho2⟩ := iho ((assign_indexes_dfs z (i + 1)).2)
    simp only [assign_indexes_dfs, collectIndices, treeSize]
    constructor
    · rw [hz1, ho1, hz2]
      rw [show 1 + treeSize z + treeSize o = (treeSize z + treeSize o) + 1 from by omega,
        List.range'_succ, List.map_cons, ← List.map_append,
        show i + 1 + treeSize z = (i + 1) + treeSize z from rfl,
        List.range'_append_1, Nat.add_comm (treeSize o) (treeSize z)]
    · rw [ho2, hz2]
      omega

theorem bfs_go_indices : ∀ (i : Nat) (L : List DTree),
    List.Perm ((bfs_go i L).map collectIndices).flatten
      ((List.range' i ((L.map treeSize).sum)).map some) := by
  intro i L
  induction i, L using bfs_go.induct with
  | case1 i => simp [bfs_go]
  | case2 index rest ih =>
    rw [show bfs_go index (DTree.empty :: rest) = DTree.empty :: bfs_go index rest
      from by rw [bfs_go]]
    simpa [collectIndices, treeSize] using ih
  | case3 index idx insns rest ih =>
    rw [show bfs_go index (DTree.leaf idx insns :: rest)
        = DTree.leaf (some index) insns :: bfs_go (index + 1) rest
      from by rw [bfs_go]]
    simp only [List.map_cons, List.flatten_cons, collectIndices, List.map_cons,
      List.sum_cons, treeSize]
    rw [show 1 + (rest.map treeSize).sum = (rest.map treeSize).sum + 1 from by omega,
      List.range'_succ, List.map_cons]
    exact List.Perm.cons _ ih
  | case4 index idx b z o rest ozr zr restr heq ih =>
    rw [show bfs_go index (DTree.branch idx b z o :: rest)
        = DTree.branch (some index) b zr ozr :: restr
      from by rw [bfs_go, heq]]
    rw [heq] at ih
    simp only [List.map_cons, List.flatten_cons, collectIndices, List.sum_cons,
      treeSize] at ih ⊢
    have hstep : List.Perm
        ((some index :: (collectIndices zr ++ collectIndices ozr))
          ++ (restr.map collectIndices).flatten)
        (some index :: (collectIndices ozr
          ++ (collectIndices zr ++ (restr.map collectIndices).flatten))) := by
      rw [List.cons_append, List.append_assoc]
      apply List.Perm.cons
      rw [← List.append_assoc, ← List.append_assoc]
      exact List.Perm.append_right _ (List.perm_append_comm)
    apply hstep.trans
    rw [show 1 + treeSize z + treeSize o + (rest.map treeSize).sum
        = (treeSize o + (treeSize z + (rest.map treeSize).sum)) + 1 from by omega,
      List.range'_succ, List.map_cons]
    exact List.Perm.cons _ ih
  | case5 index idx b z o rest hnone ih =>
    exfalso
    have hlen := bfs_go_length (index + 1) (o :: z :: rest)
    cases hb : bfs_go (index + 1) (o :: z :: rest) with
    | nil => rw [hb] at hlen; simp at hlen
    | cons a rest1 =>
      cases rest1 with
      | nil => rw [hb] at hlen; simp at hlen
      | cons a2 rest2 => exact hnone a a2 rest2 hb

-- Convenience equations for the top-level entry point.

theorem build_decision_tree_total (rules : List Insn) (idx : DecisionTreeIndexing) :
    ∃ t, build_decision_tree rules idx = some t := by
  obtain ⟨t0, h0⟩ := build_total
    (rules.map (fun insn => { insn := insn, mask := insn.mask }))
  refine ⟨assign_indexes t0 idx, ?_⟩
  unfold build_decision_tree
  rw [h0]

theorem walk_assign (w : Nat) (t : DTree) (idx : DecisionTreeIndexing) :
    walkTree w (assign_indexes t idx) = walkTree w t := by
  rw [← walkTree_stripIdx w (assign_indexes t idx), stripIdx_assign,
    walkTree_stripIdx]

theorem leafLists_assign (t : DTree) (idx : DecisionTreeIndexing) :
    leafLists (assign_indexes t idx) = leafLists t := by
  rw [← leafLists_stripIdx (assign_indexes t idx), stripIdx_assign,
    leafLists_stripIdx]

theorem leafEntries_assign (t : DTree) (idx : DecisionTreeIndexing) (p : Nat) :
    leafEntries p (assign_indexes t idx) = leafEntries p t := by
  rw [← leafEntries_stripIdx (assign_indexes t idx) p, stripIdx_assign,
    leafEntries_stripIdx]

/-- C1: for every input word `w` and every rule set satisfying the
preconditions, walking the tree produced by `build_decision_tree` — testing
`decision_bit` of `w` at each Branch and descending accordingly — always
reaches a Leaf (when the rule set is non-empty), and the first rule of that
leaf's list for which `(w &&& rule.mask) == rule.opcode` holds is the
highest-priority (most specific, input-order tie-broken) match for `w` among
all input rules; if the leaf has no matching rule, no rule of the entire
input matches `w`. -/
theorem C1_walk_first_match_highest_priority
    (rules : List Insn) (indexing : DecisionTreeIndexing) (w : Nat) (t : DTree)
    (hwf : ∀ r ∈ rules, InsnWF r)
    (hb : build_decision_tree rules indexing = some t) :
    (rules ≠ [] → ∃ l, walkTree w t = some l) ∧
    ∀ l, walkTree w t = some l →
      (leaf_lookup w l = none → ∀ r ∈ rules, insn_matches w r = false) ∧
      (∀ n, leaf_lookup w l = some n → IsHighestPriorityMatch w rules n.insn) := by
  obtain ⟨t0, hb0, rfl⟩ := build_decision_tree_elim hb
  have hmain := build_walk_main _ t0 hb0 0xFFFFFFFF (GroupInv_init hwf) w
  constructor
  · intro hne
    rw [walk_assign]
    refine hmain.1 (fun hc => hne ?_)
    simpa using hc
  · intro l hl
    rw [walk_assign] at hl
    obtain ⟨q1, q2⟩ := hmain.2 l hl
    constructor
    · intro h0 r hr
      have := q1 h0 { insn := r, mask := r.mask }
        (List.mem_map_of_mem _ hr)
      exact this
    · intro n hn
      have hg := q2 n hn
      unfold GBest at hg
      rw [g0_map_insn] at hg
      exact hg

/-- C2: every rule of a precondition-satisfying input appears in exactly one
leaf of the tree returned by `build_decision_tree`: the concatenation of all
leaf rule lists is a permutation of the input rule sequence (no rule dropped,
none duplicated). -/
theorem C2_rules_partition_leaves
    (rules : List Insn) (indexing : DecisionTreeIndexing) (t : DTree)
    (hwf : ∀ r ∈ rules, InsnWF r)
    (hb : build_decision_tree rules indexing = some t) :
    List.Perm (allLeafInsns t) rules := by
  obtain ⟨t0, hb0, rfl⟩ := build_decision_tree_elim hb
  unfold allLeafInsns
  rw [leafLists_assign]
  have h := build_leaves_perm _ t0 hb0
  rwa [g0_map_insn] at h

/-- C3: every multi-rule leaf emitted by `build_decision_tree` lists its rules
in descending specificity of the remaining mask (the `count_zeros` key is
non-decreasing along the list), and the rules of each fixed specificity class
appear as a subsequence of the input rule order (stable sort, input-order
tie-break). -/
theorem C3_multi_leaf_sorted_stable
    (rules : List Insn) (indexing : DecisionTreeIndexing) (t : DTree)
    (hb : build_decision_tree rules indexing = some t) :
    ∀ l ∈ leafLists t, 2 ≤ l.length →
      l.Pairwise leafLe ∧
      ∀ k, List.Sublist ((clsFilter k l).map LeafNode.insn) rules := by
  obtain ⟨t0, hb0, rfl⟩ := build_decision_tree_elim hb
  rw [leafLists_assign]
  intro l hl h2
  obtain ⟨hp, hs⟩ := build_leaves_sorted _ t0 hb0 l hl
  refine ⟨hp, fun k => ?_⟩
  have := hs k
  rwa [g0_map_insn] at this

/-- C4 (amended): along every root-to-leaf path of a tree returned by
`build_decision_tree`, the union of the tested decision bits and a stored
rule's remaining mask is contained in that rule's original mask and the two
parts are disjoint; the two sides need not be equal, because a bit on which a
whole group agrees is cleared without emitting a branch. -/
theorem C4_mask_conservation_amended
    (rules : List Insn) (indexing : DecisionTreeIndexing) (t : DTree)
    (hb : build_decision_tree rules indexing = some t) :
    ∀ e ∈ leafEntries 0 t,
      (e.1 ||| e.2.mask) &&& e.2.insn.mask = e.1 ||| e.2.mask ∧
      e.1 &&& e.2.mask = 0 := by
  obtain ⟨t0, hb0, rfl⟩ := build_decision_tree_elim hb
  rw [leafEntries_assign]
  refine build_leafEntries _ t0 hb0 0 ?_ ?_ ?_
  · intro n hn
    apply Nat.eq_of_testBit_eq
    intro i
    simp
  · intro n hn
    apply Nat.eq_of_testBit_eq
    intro i
    simp
  · intro n hn
    obtain ⟨r, hr, rfl⟩ := List.mem_map.mp hn
    exact Nat.and_self _

/-- C7: in every tree produced by `build_decision_tree`, neither child of any
Branch node is empty. -/
theorem C7_no_empty_branch_child
    (rules : List Insn) (indexing : DecisionTreeIndexing) (t : DTree)
    (hb : build_decision_tree rules indexing = some t) :
    noEmptyChildren t := by
  obtain ⟨t0, hb0, rfl⟩ := build_decision_tree_elim hb
  rw [← noEmptyChildren_strip, stripIdx_assign, noEmptyChildren_strip]
  exact (build_no_empty _ t0 hb0).1

/-- C8: on any input satisfying the preconditions, `build_decision_tree`
terminates with a result — the recursion is bounded because every iteration
either splits the group into strictly smaller subgroups or clears a bit from
every remaining mask. -/
theorem C8_build_terminates
    (rules : List Insn) (indexing : DecisionTreeIndexing)
    (hwf : ∀ r ∈ rules, InsnWF r) :
    ∃ t, build_decision_tree rules indexing = some t :=
  build_decision_tree_total rules indexing

/-- C10: `build_decision_tree` is total on every finite input, even without
the preconditions: the shift-overflow panic of `1u32.shl(decision_bit)` is
unreachable because the decision bit of a non-zero 32-bit mask is below 32,
and the index-assignment passes are total. -/
theorem C10_build_total_without_preconditions
    (rules : List Insn) (indexing : DecisionTreeIndexing) :
    (build_decision_tree rules indexing).isSome = true := by
  obtain ⟨t, ht⟩ := build_decision_tree_total rules indexing
  rw [ht]
  rfl

/-- C6: after index assignment with either the depth-first or the
breadth-first strategy on any tree with N nodes, every node carries an index
and the assigned indices are exactly {0, …, N−1}, no gaps, no repeats. -/
theorem C6_assign_indices_contiguous (t : DTree) :
    List.Perm (collectIndices (assign_indexes t DecisionTreeIndexing.DFS))
      ((List.range (treeSize t)).map some) ∧
    List.Perm (collectIndices (assign_indexes t DecisionTreeIndexing.BFS))
      ((List.range (treeSize t)).map some) := by
  constructor
  · show List.Perm (collectIndices (assign_indexes_dfs t 0).1) _
    rw [(assign_dfs_spec t 0).1, List.range_eq_range']
  · show List.Perm (collectIndices (assign_indexes_bfs t)) _
    have h := bfs_go_indices 0 [t]
    have hlen := bfs_go_length 0 [t]
    cases hb : bfs_go 0 [t] with
    | nil => rw [hb] at hlen; simp at hlen
    | cons a rest =>
      cases rest with
      | cons a2 rest2 => rw [hb] at hlen; simp at hlen
      | nil =>
        rw [hb] at h
        simp only [List.map_cons, List.map_nil, List.flatten_cons,
          List.flatten_nil, List.append_nil, List.sum_cons, List.sum_nil] at h
        unfold assign_indexes_bfs
        rw [hb]
        simpa [List.range_eq_range'] using h

theorem build_decision_tree_None_eq {rules : List Insn} {t0 : DTree}
    (h : build_decision_tree_recursive
      (rules.map (fun insn => { insn := insn, mask := insn.mask })) = some t0) :
    build_decision_tree rules DecisionTreeIndexing.None = some t0 := by
  unfold build_decision_tree
  rw [h]
  rfl

theorem build_decision_tree_BFS_eq {rules : List Insn} {t0 : DTree}
    (h : build_decision_tree_recursive
      (rules.map (fun insn => { insn := insn, mask := insn.mask })) = some t0) :
    build_decision_tree rules DecisionTreeIndexing.BFS
      = some (assign_indexes_bfs t0) := by
  unfold build_decision_tree
  rw [h]
  rfl

/-- C9: on the worked scenario A = (mask 1111, opcode 1010),
B = (mask 1111, opcode 1011), C = (mask 0011, opcode 0010), in the order
A, B, C, `build_decision_tree` produces exactly the tree
Branch(bit 0) with zero-child Leaf [A, C] (in that order) and one-child
Leaf [B]. -/
theorem C9_worked_scenario :
    build_decision_tree
        [⟨15, 10, 0⟩, ⟨15, 11, 1⟩, ⟨3, 2, 2⟩] DecisionTreeIndexing.None
      = some (DTree.branch none 0
          (DTree.leaf none [⟨12, ⟨15, 10, 0⟩⟩, ⟨0, ⟨3, 2, 2⟩⟩])
          (DTree.leaf none [⟨14, ⟨15, 11, 1⟩⟩])) := by
  have hone : build_decision_tree_recursive [⟨14, ⟨15, 11, 1⟩⟩]
      = some (DTree.leaf none [⟨14, ⟨15, 11, 1⟩⟩]) :=
    build_eq_single (by simp) (by simp)
  have hzero : build_decision_tree_recursive [⟨14, ⟨15, 10, 0⟩⟩, ⟨2, ⟨3, 2, 2⟩⟩]
      = some (DTree.leaf none [⟨12, ⟨15, 10, 0⟩⟩, ⟨0, ⟨3, 2, 2⟩⟩]) := by
    rw [build_eq_continue_one (by simp) (by simp) (by decide) (by decide)]
    rw [show splitOne
        (1 <<< trailing_zeros (accMask [⟨14, ⟨15, 10, 0⟩⟩, ⟨2, ⟨3, 2, 2⟩⟩]))
        [⟨14, ⟨15, 10, 0⟩⟩, ⟨2, ⟨3, 2, 2⟩⟩]
        = [⟨12, ⟨15, 10, 0⟩⟩, ⟨0, ⟨3, 2, 2⟩⟩] from by decide]
    rw [build_eq_sorted (by simp) (by simp) (by decide)]
    rw [show sort_by_key [⟨12, ⟨15, 10, 0⟩⟩, ⟨0, ⟨3, 2, 2⟩⟩]
        = [⟨12, ⟨15, 10, 0⟩⟩, ⟨0, ⟨3, 2, 2⟩⟩] from by decide]
  apply build_decision_tree_None_eq
  show build_decision_tree_recursive
      [⟨15, ⟨15, 10, 0⟩⟩, ⟨15, ⟨15, 11, 1⟩⟩, ⟨3, ⟨3, 2, 2⟩⟩] = _
  have hzs : splitZero
      (1 <<< trailing_zeros
        (accMask [⟨15, ⟨15, 10, 0⟩⟩, ⟨15, ⟨15, 11, 1⟩⟩, ⟨3, ⟨3, 2, 2⟩⟩]))
      [⟨15, ⟨15, 10, 0⟩⟩, ⟨15, ⟨15, 11, 1⟩⟩, ⟨3, ⟨3, 2, 2⟩⟩]
      = [⟨14, ⟨15, 10, 0⟩⟩, ⟨2, ⟨3, 2, 2⟩⟩] := by decide
  have hos : splitOne
      (1 <<< trailing_zeros
        (accMask [⟨15, ⟨15, 10, 0⟩⟩, ⟨15, ⟨15, 11, 1⟩⟩, ⟨3, ⟨3, 2, 2⟩⟩]))
      [⟨15, ⟨15, 10, 0⟩⟩, ⟨15, ⟨15, 11, 1⟩⟩, ⟨3, ⟨3, 2, 2⟩⟩]
      = [⟨14, ⟨15, 11, 1⟩⟩] := by decide
  rw [build_eq_branch (by simp) (by simp) (by decide)
    (by rw [hzs]; simp) (by rw [hos]; simp)
    (by rw [hzs]; exact hzero) (by rw [hos]; exact hone)]
  rw [show trailing_zeros
      (accMask [⟨15, ⟨15, 10, 0⟩⟩, ⟨15, ⟨15, 11, 1⟩⟩, ⟨3, ⟨3, 2, 2⟩⟩]) = 0
    from by decide]

/-- C5: counter-evidence for level-order numbering.  On the three rules
(mask 01, opcode 00), (mask 11, opcode 01), (mask 11, opcode 11) the builder
produces a Branch whose zero child is a Leaf (depth 1) and whose one child is
a Branch with two Leaves (depth 2); `assign_indexes` with the BFS strategy
pops its worklist `Vec` from the back (LIFO), so the depth-1 Leaf receives
index 4 while the depth-2 Leaves receive indices 2 and 3 — numbering is not
level by level. -/
theorem C5_bfs_numbering_not_level_order :
    build_decision_tree [⟨1, 0, 0⟩, ⟨3, 1, 1⟩, ⟨3, 3, 2⟩] DecisionTreeIndexing.BFS
      = some (DTree.branch (some 0) 0
          (DTree.leaf (some 4) [⟨0, ⟨1, 0, 0⟩⟩])
          (DTree.branch (some 1) 1
            (DTree.leaf (some 3) [⟨0, ⟨3, 1, 1⟩⟩])
            (DTree.leaf (some 2) [⟨0, ⟨3, 3, 2⟩⟩]))) ∧
    ∃ x ∈ indicesAtDepth
        (DTree.branch (some 0) 0
          (DTree.leaf (some 4) [⟨0, ⟨1, 0, 0⟩⟩])
          (DTree.branch (some 1) 1
            (DTree.leaf (some 3) [⟨0, ⟨3, 1, 1⟩⟩])
            (DTree.leaf (some 2) [⟨0, ⟨3, 3, 2⟩⟩]))) 1,
      ∃ y ∈ indicesAtDepth
        (DTree.branch (some 0) 0
          (DTree.leaf (some 4) [⟨0, ⟨1, 0, 0⟩⟩])
          (DTree.branch (some 1) 1
            (DTree.leaf (some 3) [⟨0, ⟨3, 1, 1⟩⟩])
            (DTree.leaf (some 2) [⟨0, ⟨3, 3, 2⟩⟩]))) 2,
      ∃ ix iy, x = some ix ∧ y = some iy ∧ iy < ix := by
  constructor
  · have hBC : build_decision_tree_recursive [⟨2, ⟨3, 1, 1⟩⟩, ⟨2, ⟨3, 3, 2⟩⟩]
        = some (DTree.branch none 1
            (DTree.leaf none [⟨0, ⟨3, 1, 1⟩⟩]) (DTree.leaf none [⟨0, ⟨3, 3, 2⟩⟩])) := by
      have hzs : splitZero
          (1 <<< trailing_zeros (accMask [⟨2, ⟨3, 1, 1⟩⟩, ⟨2, ⟨3, 3, 2⟩⟩]))
          [⟨2, ⟨3, 1, 1⟩⟩, ⟨2, ⟨3, 3, 2⟩⟩] = [⟨0, ⟨3, 1, 1⟩⟩] := by decide
      have hos : splitOne
          (1 <<< trailing_zeros (accMask [⟨2, ⟨3, 1, 1⟩⟩, ⟨2, ⟨3, 3, 2⟩⟩]))
          [⟨2, ⟨3, 1, 1⟩⟩, ⟨2, ⟨3, 3, 2⟩⟩] = [⟨0, ⟨3, 3, 2⟩⟩] := by decide
      rw [build_eq_branch (by simp) (by simp) (by decide)
        (by rw [hzs]; simp) (by rw [hos]; simp)
        (by rw [hzs]; exact build_eq_single (by simp) (by simp))
        (by rw [hos]; exact build_eq_single (by simp) (by simp))]
      rw [show trailing_zeros (accMask [⟨2, ⟨3, 1, 1⟩⟩, ⟨2, ⟨3, 3, 2⟩⟩]) = 1
        from by decide]
    have hroot : build_decision_tree_recursive
        [⟨1, ⟨1, 0, 0⟩⟩, ⟨3, ⟨3, 1, 1⟩⟩, ⟨3, ⟨3, 3, 2⟩⟩]
        = some (DTree.branch none 0
            (DTree.leaf none [⟨0, ⟨1, 0, 0⟩⟩])
            (DTree.branch none 1
              (DTree.leaf none [⟨0, ⟨3, 1, 1⟩⟩])
              (DTree.leaf none [⟨0, ⟨3, 3, 2⟩⟩]))) := by
      have hzs : splitZero
          (1 <<< trailing_zeros
            (accMask [⟨1, ⟨1, 0, 0⟩⟩, ⟨3, ⟨3, 1, 1⟩⟩, ⟨3, ⟨3, 3, 2⟩⟩]))
          [⟨1, ⟨1, 0, 0⟩⟩, ⟨3, ⟨3, 1, 1⟩⟩, ⟨3, ⟨3, 3, 2⟩⟩]
          = [⟨0, ⟨1, 0, 0⟩⟩] := by decide
      have hos : splitOne
          (1 <<< trailing_zeros
            (accMask [⟨1, ⟨1, 0, 0⟩⟩, ⟨3, ⟨3, 1, 1⟩⟩, ⟨3, ⟨3, 3, 2⟩⟩]))
          [⟨1, ⟨1, 0, 0⟩⟩, ⟨3, ⟨3, 1, 1⟩⟩, ⟨3, ⟨3, 3, 2⟩⟩]
          = [⟨2, ⟨3, 1, 1⟩⟩, ⟨2, ⟨3, 3, 2⟩⟩] := by decide
      rw [build_eq_branch (by simp) (by simp) (by decide)
        (by rw [hzs]; simp) (by rw [hos]; simp)
        (by rw [hzs]; exact build_eq_single (by simp) (by simp))
        (by rw [hos]; exact hBC)]
      rw [show trailing_zeros
          (accMask [⟨1, ⟨1, 0, 0⟩⟩, ⟨3, ⟨3, 1, 1⟩⟩, ⟨3, ⟨3, 3, 2⟩⟩]) = 0
        from by decide]
    have hb := @build_decision_tree_BFS_eq [⟨1, 0, 0⟩, ⟨3, 1, 1⟩, ⟨3, 3, 2⟩] _ hroot
    rw [hb]
    have e0 : bfs_go 5 ([] : List DTree) = [] := by rw [bfs_go]
    have e1 : bfs_go 4 [DTree.leaf none [⟨0, ⟨1, 0, 0⟩⟩]]
        = [DTree.leaf (some 4) [⟨0, ⟨1, 0, 0⟩⟩]] := by rw [bfs_go, e0]
    have e2 : bfs_go 3 [DTree.leaf none [⟨0, ⟨3, 1, 1⟩⟩],
          DTree.leaf none [⟨0, ⟨1, 0, 0⟩⟩]]
        = [DTree.leaf (some 3) [⟨0, ⟨3, 1, 1⟩⟩],
           DTree.leaf (some 4) [⟨0, ⟨1, 0, 0⟩⟩]] := by rw [bfs_go, e1]
    have e3 : bfs_go 2 [DTree.leaf none [⟨0, ⟨3, 3, 2⟩⟩],
          DTree.leaf none [⟨0, ⟨3, 1, 1⟩⟩], DTree.leaf none [⟨0, ⟨1, 0, 0⟩⟩]]
        = [DTree.leaf (some 2) [⟨0, ⟨3, 3, 2⟩⟩],
           DTree.leaf (some 3) [⟨0, ⟨3, 1, 1⟩⟩],
           DTree.leaf (some 4) [⟨0, ⟨1, 0, 0⟩⟩]] := by rw [bfs_go, e2]
    have e4 : bfs_go 1 [DTree.branch none 1
          (DTree.leaf none [⟨0, ⟨3, 1, 1⟩⟩]) (DTree.leaf none [⟨0, ⟨3, 3, 2⟩⟩]),
          DTree.leaf none [⟨0, ⟨1, 0, 0⟩⟩]]
        = [DTree.branch (some 1) 1
            (DTree.leaf (some 3) [⟨0, ⟨3, 1, 1⟩⟩])
            (DTree.leaf (some 2) [⟨0, ⟨3, 3, 2⟩⟩]),
           DTree.leaf (some 4) [⟨0, ⟨1, 0, 0⟩⟩]] := by rw [bfs_go, e3]
    have e5 : bfs_go 0 [DTree.branch none 0
          (DTree.leaf none [⟨0, ⟨1, 0, 0⟩⟩])
          (DTree.branch none 1
            (DTree.leaf none [⟨0, ⟨3, 1, 1⟩⟩])
            (DTree.leaf none [⟨0, ⟨3, 3, 2⟩⟩]))]
        = [DTree.branch (some 0) 0
            (DTree.leaf (some 4) [⟨0, ⟨1, 0, 0⟩⟩])
            (DTree.branch (some 1) 1
              (DTree.leaf (some 3) [⟨0, ⟨3, 1, 1⟩⟩])
              (DTree.leaf (some 2) [⟨0, ⟨3, 3, 2⟩⟩]))] := by rw [bfs_go, e4]
    unfold assign_indexes_bfs
    rw [e5]
    rfl
  · refine ⟨some 4, by decide, some 3, by decide, 4, 3, rfl, rfl, by omega⟩

/-- C4 (counterexample): on the two rules (mask 1, opcode 1) and
(mask 11, opcode 11) the builder clears bit 0 — on which both rules agree —
without emitting a branch, and the resulting single leaf has no path bits at
all: for the first rule, path bits ∪ remaining mask = ∅ ≠ its original
mask {bit 0}.  Mask conservation as stated fails. -/
theorem C4_counterexample_mask_conservation :
    build_decision_tree [⟨1, 1, 0⟩, ⟨3, 3, 1⟩] DecisionTreeIndexing.None
      = some (DTree.leaf none [⟨2, ⟨3, 3, 1⟩⟩, ⟨0, ⟨1, 1, 0⟩⟩]) ∧
    ¬ (∀ e ∈ leafEntries 0
        (DTree.leaf none [⟨2, ⟨3, 3, 1⟩⟩, ⟨0, ⟨1, 1, 0⟩⟩]),
        e.1 ||| e.2.mask = e.2.insn.mask) := by
  constructor
  · apply build_decision_tree_None_eq
    show build_decision_tree_recursive [⟨1, ⟨1, 1, 0⟩⟩, ⟨3, ⟨3, 3, 1⟩⟩] = _
    rw [build_eq_continue_one (by simp) (by simp) (by decide) (by decide)]
    rw [show splitOne
        (1 <<< trailing_zeros (accMask [⟨1, ⟨1, 1, 0⟩⟩, ⟨3, ⟨3, 3, 1⟩⟩]))
        [⟨1, ⟨1, 1, 0⟩⟩, ⟨3, ⟨3, 3, 1⟩⟩]
        = [⟨0, ⟨1, 1, 0⟩⟩, ⟨2, ⟨3, 3, 1⟩⟩] from by decide]
    rw [build_eq_sorted (by simp) (by simp) (by decide)]
    rw [show sort_by_key [⟨0, ⟨1, 1, 0⟩⟩, ⟨2, ⟨3, 3, 1⟩⟩]
        = [⟨2, ⟨3, 3, 1⟩⟩, ⟨0, ⟨1, 1, 0⟩⟩] from by decide]
  · decide

instance (r : Insn) : Decidable (InsnWF r) := by
  unfold InsnWF
  infer_instance

theorem eval_tree_single :
    build_decision_tree [⟨1, 1, 0⟩] DecisionTreeIndexing.None
      = some (DTree.leaf none [⟨1, ⟨1, 1, 0⟩⟩]) := by
  apply build_decision_tree_None_eq
  show build_decision_tree_recursive [⟨1, ⟨1, 1, 0⟩⟩] = _
  exact build_eq_single (by simp) (by simp)

theorem eval_tree_pair :
    build_decision_tree [⟨1, 1, 0⟩, ⟨3, 3, 1⟩] DecisionTreeIndexing.None
      = some (DTree.leaf none [⟨2, ⟨3, 3, 1⟩⟩, ⟨0, ⟨1, 1, 0⟩⟩]) := by
  apply build_decision_tree_None_eq
  show build_decision_tree_recursive [⟨1, ⟨1, 1, 0⟩⟩, ⟨3, ⟨3, 3, 1⟩⟩] = _
  rw [build_eq_continue_one (by simp) (by simp) (by decide) (by decide)]
  rw [show splitOne
      (1 <<< trailing_zeros (accMask [⟨1, ⟨1, 1, 0⟩⟩, ⟨3, ⟨3, 3, 1⟩⟩]))
      [⟨1, ⟨1, 1, 0⟩⟩, ⟨3, ⟨3, 3, 1⟩⟩]
      = [⟨0, ⟨1, 1, 0⟩⟩, ⟨2, ⟨3, 3, 1⟩⟩] from by decide]
  rw [build_eq_sorted (by simp) (by simp) (by decide)]
  rw [show sort_by_key [⟨0, ⟨1, 1, 0⟩⟩, ⟨2, ⟨3, 3, 1⟩⟩]
      = [⟨2, ⟨3, 3, 1⟩⟩, ⟨0, ⟨1, 1, 0⟩⟩] from by decide]

/-- Witness for C1 at a concrete input: one rule (mask 1, opcode 1), word 1. -/
theorem C1_walk_first_match_highest_priority_witness :
    (∀ r ∈ ([⟨1, 1, 0⟩] : List Insn), InsnWF r) ∧
    build_decision_tree [⟨1, 1, 0⟩] DecisionTreeIndexing.None
      = some (DTree.leaf none [⟨1, ⟨1, 1, 0⟩⟩]) ∧
    ((([⟨1, 1, 0⟩] : List Insn) ≠ [] →
        ∃ l, walkTree 1 (DTree.leaf none [⟨1, ⟨1, 1, 0⟩⟩]) = some l) ∧
      ∀ l, walkTree 1 (DTree.leaf none [⟨1, ⟨1, 1, 0⟩⟩]) = some l →
        (leaf_lookup 1 l = none →
          ∀ r ∈ ([⟨1, 1, 0⟩] : List Insn), insn_matches 1 r = false) ∧
        (∀ n, leaf_lookup 1 l = some n →
          IsHighestPriorityMatch 1 [⟨1, 1, 0⟩] n.insn)) :=
  ⟨by decide, eval_tree_single,
    C1_walk_first_match_highest_priority [⟨1, 1, 0⟩] DecisionTreeIndexing.None 1 _
      (by decide) eval_tree_single⟩

/-- Witness for C2 at a concrete input. -/
theorem C2_rules_partition_leaves_witness :
    (∀ r ∈ ([⟨1, 1, 0⟩, ⟨3, 3, 1⟩] : List Insn), InsnWF r) ∧
    build_decision_tree [⟨1, 1, 0⟩, ⟨3, 3, 1⟩] DecisionTreeIndexing.None
      = some (DTree.leaf none [⟨2, ⟨3, 3, 1⟩⟩, ⟨0, ⟨1, 1, 0⟩⟩]) ∧
    List.Perm (allLeafInsns (DTree.leaf none [⟨2, ⟨3, 3, 1⟩⟩, ⟨0, ⟨1, 1, 0⟩⟩]))
      [⟨1, 1, 0⟩, ⟨3, 3, 1⟩] :=
  ⟨by decide, eval_tree_pair,
    C2_rules_partition_leaves [⟨1, 1, 0⟩, ⟨3, 3, 1⟩] DecisionTreeIndexing.None _
      (by decide) eval_tree_pair⟩

/-- Witness for C3 at a concrete input with a two-rule leaf. -/
theorem C3_multi_leaf_sorted_stable_witness :
    build_decision_tree [⟨1, 1, 0⟩, ⟨3, 3, 1⟩] DecisionTreeIndexing.None
      = some (DTree.leaf none [⟨2, ⟨3, 3, 1⟩⟩, ⟨0, ⟨1, 1, 0⟩⟩]) ∧
    (∀ l ∈ leafLists (DTree.leaf none [⟨2, ⟨3, 3, 1⟩⟩, ⟨0, ⟨1, 1, 0⟩⟩]),
      2 ≤ l.length →
      l.Pairwise leafLe ∧
      ∀ k, List.Sublist ((clsFilter k l).map LeafNode.insn)
        [⟨1, 1, 0⟩, ⟨3, 3, 1⟩]) :=
  ⟨eval_tree_pair,
    C3_multi_leaf_sorted_stable [⟨1, 1, 0⟩, ⟨3, 3, 1⟩] DecisionTreeIndexing.None _
      eval_tree_pair⟩

/-- Witness for the amended C4 at a concrete input. -/
theorem C4_mask_conservation_amended_witness :
    build_decision_tree [⟨1, 1, 0⟩, ⟨3, 3, 1⟩] DecisionTreeIndexing.None
      = some (DTree.leaf none [⟨2, ⟨3, 3, 1⟩⟩, ⟨0, ⟨1, 1, 0⟩⟩]) ∧
    (∀ e ∈ leafEntries 0 (DTree.leaf none [⟨2, ⟨3, 3, 1⟩⟩, ⟨0, ⟨1, 1, 0⟩⟩]),
      (e.1 ||| e.2.mask) &&& e.2.insn.mask = e.1 ||| e.2.mask ∧
      e.1 &&& e.2.mask = 0) :=
  ⟨eval_tree_pair,
    C4_mask_conservation_amended [⟨1, 1, 0⟩, ⟨3, 3, 1⟩] DecisionTreeIndexing.None _
      eval_tree_pair⟩

/-- Witness for C7 at a concrete input. -/
theorem C7_no_empty_branch_child_witness :
    build_decision_tree [⟨1, 1, 0⟩, ⟨3, 3, 1⟩] DecisionTreeIndexing.None
      = some (DTree.leaf none [⟨2, ⟨3, 3, 1⟩⟩, ⟨0, ⟨1, 1, 0⟩⟩]) ∧
    noEmptyChildren (DTree.leaf none [⟨2, ⟨3, 3, 1⟩⟩, ⟨0, ⟨1, 1, 0⟩⟩]) :=
  ⟨eval_tree_pair,
    C7_no_empty_branch_child [⟨1, 1, 0⟩, ⟨3, 3, 1⟩] DecisionTreeIndexing.None _
      eval_tree_pair⟩

/-- Witness for C8 at a concrete input. -/
theorem C8_build_terminates_witness :
    (∀ r ∈ ([⟨1, 1, 0⟩, ⟨3, 3, 1⟩] : List Insn), InsnWF r) ∧
    ∃ t, build_decision_tree [⟨1, 1, 0⟩, ⟨3, 3, 1⟩] DecisionTreeIndexing.BFS
      = some t :=
  ⟨by decide,
    C8_build_terminates [⟨1, 1, 0⟩, ⟨3, 3, 1⟩] DecisionTreeIndexing.BFS (by decide)⟩
